import Mathlib

/-!
Shallow embedding of the Classroom Allocator (browser-resident room
allocation tool). The main script (`src/unnamed/part_000`) holds the room
store (`allRooms`), the rooms graph (`roomsGraph`, a JS `Map` keyed by
`room_id`), the booking ledger (`schedulesArray`), the bounded log queue
(`logsQueue`), and the operations `buildRoomsGraph`, `allocateRoom`,
`checkAvailability`, `detectConflicts`, `addLog`, `loadLogs`,
`handleAllocationSubmit`, `handleAddRoomSubmit`. The canvas visualizer
(`src/frontend/graph.js`) has its own adjacency builder
`RoomGraphVisualizer.buildGraph`.

JavaScript strings are compared with the relational operators on code
units; dates and `HH:MM` times in this program are plain ASCII strings, so
we embed the comparison as lexicographic order over the character list.
JavaScript `Map` is embedded as an association list with in-place value
replacement on existing keys and append for fresh keys (insertion order
iteration). The floating-point test `capacityDiff / maxCapacity <= 0.25`
on integer capacities is embedded by its exact rational equivalent
`4 * diff ≤ max` guarded by `max ≠ 0` (with `maxCapacity = 0` JavaScript
computes `0/0 = NaN`, and `NaN <= 0.25` is `false`).
Rendering-only outputs (canvas coordinates, colors, tooltip state) are
omitted from the visualizer embedding.
-/

namespace Classroom

/-! ## JS string comparison (code-unit lexicographic order) -/

/-- Lexicographic strict order on character lists, by code point. -/
def charListLt : List Char → List Char → Bool
  | _, [] => false
  | [], _ :: _ => true
  | a :: as, b :: bs =>
    if a.val < b.val then true
    else if b.val < a.val then false
    else charListLt as bs

/-- JavaScript `a < b` on strings. -/
def strLt (a b : String) : Bool := charListLt a.data b.data

/-- JavaScript `a <= b` on strings (total order, so `a <= b` iff `¬ b < a`). -/
def strLe (a b : String) : Bool := !(strLt b a)

/-! ## Data model -/

/-- The six facility flags of a room (and of a booking request). -/
structure Facilities where
  projector : Bool
  lab : Bool
  accessible : Bool
  whiteboard : Bool
  audio : Bool
  smartboard : Bool
deriving DecidableEq, Repr

/-- A room record of the Room Store (`allRooms`). -/
structure Room where
  room_id : String
  building : String
  capacity : Nat
  floor : Int
  facilities : Facilities
deriving DecidableEq, Repr

/-- A node of `roomsGraph`: the spread of a room record plus its
`adjacentRooms` list (`{...room, adjacentRooms: []}`). -/
structure GNode where
  room_id : String
  building : String
  capacity : Nat
  floor : Int
  facilities : Facilities
  adjacentRooms : List String
deriving DecidableEq, Repr

/-- The node initially inserted for a room by `buildRoomsGraph`. -/
def Room.toNode (r : Room) : GNode :=
  ⟨r.room_id, r.building, r.capacity, r.floor, r.facilities, []⟩

/-- The room-record part of a graph node (every field except
`adjacentRooms`). -/
def GNode.core (n : GNode) : Room :=
  ⟨n.room_id, n.building, n.capacity, n.floor, n.facilities⟩

/-- A booking request (`formData` of `handleAllocationSubmit`). -/
structure Request where
  course_name : String
  instructor : String
  date : String
  start_time : String
  end_time : String
  capacity : Nat
  building : String
  facilities : Facilities
deriving DecidableEq, Repr

/-- A booking record of the ledger (`schedulesArray`): the request fields
plus the assigned room node, booking id and timestamp. -/
structure Booking where
  course_name : String
  instructor : String
  date : String
  start_time : String
  end_time : String
  capacity : Nat
  building : String
  facilities : Facilities
  room : GNode
  booking_id : String
  timestamp : String
deriving DecidableEq, Repr

/-- A log entry of `logsQueue`. -/
structure LogEntry where
  type : String
  message : String
  timestamp : String
deriving DecidableEq, Repr

/-! ## Bounded log queue (`addLog`, `loadLogs`, offline restore) -/

/-- `addLog`: `unshift` the entry, then `pop` the tail when the length
exceeds 100. -/
def addLog (log : LogEntry) (q : List LogEntry) : List LogEntry :=
  let q' := log :: q
  if q'.length > 100 then q'.dropLast else q'

/-- `loadLogs` on a successful fetch: `logsQueue = data.logs || []`, the
fetched sequence replaces the queue unchanged. -/
def loadLogs (fetchedLogs : List LogEntry) : List LogEntry := fetchedLogs

/-- `initializeOfflineMode` log restore: `logsQueue = JSON.parse(savedLogs)`,
the cached sequence replaces the queue unchanged. -/
def restoreLogsFromCache (savedLogs : List LogEntry) : List LogEntry := savedLogs

/-! ## Availability check -/

/-- The body of the `schedulesArray.some` callback in `checkAvailability`:
a booking blocks the request iff it is for the same `room_id` and date and
the half-open intervals overlap. -/
def blocksBooking (roomId date startTime endTime : String) (b : Booking) : Bool :=
  if b.room.room_id ≠ roomId then false
  else if b.date ≠ date then false
  else !(strLe endTime b.start_time || strLe b.end_time startTime)

/-- `checkAvailability(roomId, date, startTime, endTime)` over the booking
ledger. -/
def checkAvailability (roomId date startTime endTime : String)
    (scheds : List Booking) : Bool :=
  !(scheds.any (blocksBooking roomId date startTime endTime))

/-! ## The rooms graph (`roomsGraph`, a JS `Map` in insertion order) -/

/-- `roomsGraph` as an association list in `Map` iteration order. -/
abbrev GraphMap := List (String × GNode)

/-- JS `Map.get`: the value at the key, if present. -/
def mapGet (m : GraphMap) (k : String) : Option GNode :=
  (m.find? (fun p => decide (p.1 = k))).map Prod.snd

/-- JS `Map.set`: replace the value of an existing key in place, keeping its
iteration position, or append a new key at the end. -/
def mapSet (m : GraphMap) (k : String) (v : GNode) : GraphMap :=
  match m with
  | [] => [(k, v)]
  | p :: rest => if p.1 = k then (k, v) :: rest else p :: mapSet rest k v

/-- `node.adjacentRooms.push(rid)` on the node stored at key `k`. -/
def pushAdj (m : GraphMap) (k : String) (rid : String) : GraphMap :=
  m.map (fun p =>
    if p.1 = k then (p.1, { p.2 with adjacentRooms := p.2.adjacentRooms ++ [rid] })
    else p)

/-- The `adjacentRooms` list stored at key `k` (empty if absent). -/
def adjOf (m : GraphMap) (k : String) : List String :=
  match mapGet m k with
  | some n => n.adjacentRooms
  | none => []

/-- `node.adjacentRooms.includes(rid)` for the node at key `k`. -/
def hasAdj (m : GraphMap) (k rid : String) : Bool :=
  decide (rid ∈ adjOf m k)

/-- The similar-capacity test `Math.abs(c1 - c2) / Math.max(c1, c2) <= 0.25`,
embedded by its exact rational equivalent on integer capacities (`false`
when both capacities are zero, as `0/0` is `NaN` in JavaScript). -/
def similarCapacity (c1 c2 : Nat) : Bool :=
  decide (0 < max c1 c2 ∧ 4 * (max c1 c2 - min c1 c2) ≤ max c1 c2)

/-- The body of the pair loop of `buildRoomsGraph` for one pair
`(room1, room2)` with `i < j`: connect same-building rooms unconditionally,
then connect similar-capacity rooms guarded by `includes`. -/
def pairStep (m : GraphMap) (r1 r2 : Room) : GraphMap :=
  let m1 := if r1.building = r2.building then
    pushAdj (pushAdj m r1.room_id r2.room_id) r2.room_id r1.room_id
  else m
  if similarCapacity r1.capacity r2.capacity then
    let m2 := if hasAdj m1 r1.room_id r2.room_id then m1
      else pushAdj m1 r1.room_id r2.room_id
    if hasAdj m2 r2.room_id r1.room_id then m2
    else pushAdj m2 r2.room_id r1.room_id
  else m1

/-- The edge-creation double loop of `buildRoomsGraph`: every pair of rooms
at positions `i < j`, in iteration order. -/
def buildEdges : List Room → GraphMap → GraphMap
  | [], m => m
  | r :: rest, m => buildEdges rest (rest.foldl (fun m' r2 => pairStep m' r r2) m)

/-- `buildRoomsGraph()`: clear the map, `set` a node for every room keyed by
its `room_id`, then run the pair loop. -/
def buildRoomsGraph (rooms : List Room) : GraphMap :=
  buildEdges rooms (rooms.foldl (fun m r => mapSet m r.room_id r.toNode) [])

/-! ## Allocator (`allocateRoom`, `handleAllocationSubmit`) -/

/-- The facilities filter of `allocateRoom`: every flag requested `true`
must be `true` on the room. -/
def facilitiesMatch (req rm : Facilities) : Bool :=
  (!req.projector || rm.projector) && (!req.lab || rm.lab) &&
  (!req.accessible || rm.accessible) && (!req.whiteboard || rm.whiteboard) &&
  (!req.audio || rm.audio) && (!req.smartboard || rm.smartboard)

/-- The `continue` chain of the candidate loop of `allocateRoom`: capacity,
building preference (skipped when the requested building is the empty
string, which is falsy), facilities, availability. -/
def isSuitable (scheds : List Booking) (req : Request) (k : String)
    (room : GNode) : Bool :=
  if room.capacity < req.capacity then false
  else if req.building ≠ "" ∧ room.building ≠ req.building then false
  else if !(facilitiesMatch req.facilities room.facilities) then false
  else checkAvailability k req.date req.start_time req.end_time scheds

/-- The `suitableRooms` list collected by the `for [roomId, room] of
roomsGraph` loop, in graph iteration order. -/
def suitableRooms (graph : GraphMap) (scheds : List Booking)
    (req : Request) : List GNode :=
  graph.filterMap (fun p => if isSuitable scheds req p.1 p.2 then some p.2 else none)

/-- `Math.abs(a - b)` on integers. -/
def absDiff (a b : Nat) : Nat := max a b - min a b

/-- The `suitableRooms.reduce` selection: keep the candidate whose capacity
difference is strictly smaller, so ties keep the earlier candidate. -/
def selectBest (reqCap : Nat) (r : GNode) (rs : List GNode) : GNode :=
  rs.foldl (fun best cur =>
    if absDiff cur.capacity reqCap < absDiff best.capacity reqCap then cur else best) r

/-- The structured outcome of `allocateRoom`. -/
inductive AllocResult where
  | success (room : GNode) (booking_id : String)
  | failure (message : String)
deriving DecidableEq, Repr

/-- `allocateRoom(requirements)`: filter the graph nodes, fail with a
message when nothing survives, otherwise select the tightest-fit room. The
generated booking id (`Date.now()` plus a random suffix) is a parameter. -/
def allocateRoom (graph : GraphMap) (scheds : List Booking) (req : Request)
    (bid : String) : AllocResult :=
  match suitableRooms graph scheds req with
  | [] => .failure "No rooms available matching your requirements. Try adjusting your criteria or selecting a different time slot."
  | r :: rs => .success (selectBest req.capacity r rs) bid

/-- The outcome of `handleAllocationSubmit` as seen by the user: a
validation rejection shown before `allocateRoom` runs, or the allocator's
structured result. -/
inductive AllocOutcome where
  | validationError (title message : String)
  | result (r : AllocResult)
deriving DecidableEq, Repr

/-- The decision logic of `handleAllocationSubmit`: reject when
`start_time >= end_time`, otherwise call `allocateRoom`. -/
def handleAllocationSubmit (graph : GraphMap) (scheds : List Booking)
    (req : Request) (bid : String) : AllocOutcome :=
  if strLe req.end_time req.start_time then
    .validationError "Invalid Time" "End time must be after start time."
  else .result (allocateRoom graph scheds req bid)

/-! ## Conflict detector (`detectConflicts`) -/

/-- The conflict test of `detectConflicts` for one ordered pair of ledger
records: same room, same date, overlapping half-open intervals. -/
def conflictPair (b1 b2 : Booking) : Bool :=
  if b1.room.room_id = b2.room.room_id ∧ b1.date = b2.date then
    !(strLe b1.end_time b2.start_time || strLe b2.end_time b1.start_time)
  else false

/-- `detectConflicts()`: the double index loop over the ledger, collecting
the conflicting pairs at positions `i < j`. -/
def detectConflicts (l : List Booking) : List (Booking × Booking) :=
  (List.range l.length).flatMap fun i =>
    (List.range l.length).flatMap fun j =>
      if i < j then
        match l[i]?, l[j]? with
        | some b1, some b2 => if conflictPair b1 b2 then [(b1, b2)] else []
        | _, _ => []
      else []

/-! ## Room addition (`handleAddRoomSubmit` duplicate check) -/

/-- The duplicate check of `handleAddRoomSubmit`: some stored room has the
same `room_id` and the same `building`. -/
def isDuplicateRoom (rooms : List Room) (nr : Room) : Bool :=
  rooms.any (fun r => decide (r.room_id = nr.room_id ∧ r.building = nr.building))

/-- `handleAddRoomSubmit` on the room store: reject duplicates (same
`room_id` and `building`), otherwise push the new room. -/
def handleAddRoomSubmit (rooms : List Room) (nr : Room) : List Room :=
  if isDuplicateRoom rooms nr then rooms else rooms ++ [nr]

/-! ## Canvas visualizer (`RoomGraphVisualizer.buildGraph`) -/

/-- A visualizer node (`this.nodes[i]`); rendering-only fields (`x`, `y`,
`color`) are omitted. -/
structure VNode where
  id : String
  building : String
  capacity : Nat
  facilities : Facilities
  adjacentRooms : List String
deriving DecidableEq, Repr

/-- A visualizer edge (`this.edges`): node indices and the edge type. -/
structure VEdge where
  from_idx : Nat
  to_idx : Nat
  type : String
  weight : Nat
deriving DecidableEq, Repr

/-- The visualizer state built by `buildGraph`. -/
structure VizState where
  nodes : List VNode
  edges : List VEdge
deriving DecidableEq, Repr

/-- Replace the element at an index by `f` of itself (out-of-range is
impossible in the embedded loops). -/
def modifyIdx (f : VNode → VNode) : Nat → List VNode → List VNode
  | _, [] => []
  | 0, n :: ns => f n :: ns
  | i + 1, n :: ns => n :: modifyIdx f i ns

/-- `node.adjacentRooms.push(rid)` on a visualizer node. -/
def vizPush (rid : String) (n : VNode) : VNode :=
  { n with adjacentRooms := n.adjacentRooms ++ [rid] }

/-- The body of the visualizer pair loop for the pair at indices `i < j`:
a building edge with an unconditional push, or else a capacity edge with an
`includes`-guarded push. -/
def vizPairStep (r1 r2 : Room) (i j : Nat) (s : VizState) : VizState :=
  if r1.building = r2.building then
    { nodes := modifyIdx (vizPush r1.room_id) j (modifyIdx (vizPush r2.room_id) i s.nodes),
      edges := s.edges ++ [⟨i, j, "building", 2⟩] }
  else if similarCapacity r1.capacity r2.capacity then
    let ns1 := match s.nodes[i]? with
      | some n => if r2.room_id ∈ n.adjacentRooms then s.nodes
        else modifyIdx (vizPush r2.room_id) i s.nodes
      | none => s.nodes
    let ns2 := match ns1[j]? with
      | some n => if r1.room_id ∈ n.adjacentRooms then ns1
        else modifyIdx (vizPush r1.room_id) j ns1
      | none => ns1
    { nodes := ns2, edges := s.edges ++ [⟨i, j, "capacity", 1⟩] }
  else s

/-- The inner `for (j = i + 1; ...)` loop of the visualizer. -/
def vizInner (r1 : Room) (i : Nat) : Nat → List Room → VizState → VizState
  | _, [], s => s
  | j, r2 :: rest, s => vizInner r1 i (j + 1) rest (vizPairStep r1 r2 i j s)

/-- The outer `for (i = 0; ...)` loop of the visualizer. -/
def vizOuter : Nat → List Room → VizState → VizState
  | _, [], s => s
  | i, r :: rest, s => vizOuter (i + 1) rest (vizInner r i (i + 1) rest s)

/-- `RoomGraphVisualizer.buildGraph(rooms)`: one node per room in order,
then the pair loop over indices `i < j`. -/
def buildGraph (rooms : List Room) : VizState :=
  vizOuter 0 rooms
    ⟨rooms.map (fun r => ⟨r.room_id, r.building, r.capacity, r.facilities, []⟩), []⟩

/-! ## Characterizations used by the proofs

A pair of the adjacency double loops, tagged with the positions of its two
rooms in the store. -/

/-- A room pair tagged with the two store positions it came from. -/
abbrev IPair := (Nat × Room) × (Nat × Room)

/-- The list of store pairs at positions `i < j`, in loop order, starting
from offset `i`. -/
def ipairList : Nat → List Room → List IPair
  | _, [] => []
  | i, r :: rest =>
    ((List.enumFrom (i + 1) rest).map (fun jr => ((i, r), jr))) ++ ipairList (i + 1) rest

/-- Drop the position tags of a tagged pair. -/
def stripIdx (p : IPair) : Room × Room := (p.1.2, p.2.2)

/-- The untagged pair list, in loop order. -/
def pairList : List Room → List (Room × Room)
  | [] => []
  | r :: rest => rest.map (fun r2 => (r, r2)) ++ pairList rest

/-- The adjacency condition of `buildRoomsGraph` for one pair: same
building, or similar capacity. -/
def adjCondB (r1 r2 : Room) : Bool :=
  decide (r1.building = r2.building) || similarCapacity r1.capacity r2.capacity

/-- The adjacency condition of the visualizer for one pair: same building,
or else (different buildings) similar capacity. -/
def vizCondB (r1 r2 : Room) : Bool :=
  if r1.building = r2.building then true
  else similarCapacity r1.capacity r2.capacity

/-- What one room pair contributes to the `adjacentRooms` list of the key
`a` in `buildRoomsGraph`. -/
def pairContrib (a : String) (r1 r2 : Room) : Option String :=
  if adjCondB r1 r2 then
    if r1.room_id = a then some r2.room_id
    else if r2.room_id = a then some r1.room_id
    else none
  else none

/-- What one tagged pair contributes to the `adjacentRooms` list of the key
`a` in `buildRoomsGraph`. -/
def mainContrib (a : String) (p : IPair) : Option String :=
  pairContrib a p.1.2 p.2.2

/-- The `adjacentRooms` list of key `a` predicted from a tagged pair list. -/
def mainAdjSpec (P : List IPair) (a : String) : List String :=
  P.filterMap (mainContrib a)

/-- What one tagged pair contributes to the `adjacentRooms` list of the
visualizer node at index `k`. -/
def vizContrib (k : Nat) (p : IPair) : Option String :=
  if vizCondB p.1.2 p.2.2 then
    if p.1.1 = k then some p.2.2.room_id
    else if p.2.1 = k then some p.1.2.room_id
    else none
  else none

/-- The `adjacentRooms` list of visualizer node `k` predicted from a tagged
pair list. -/
def vizAdjSpec (P : List IPair) (k : Nat) : List String :=
  P.filterMap (vizContrib k)

/-- A tagged pair is well-formed for a store: positions `i < j` in range
and carrying the rooms actually stored there. -/
def pairIndexWf (rooms : List Room) (p : IPair) : Prop :=
  p.1.1 < p.2.1 ∧ p.2.1 < rooms.length ∧
    rooms[p.1.1]? = some p.1.2 ∧ rooms[p.2.1]? = some p.2.2

/-- A tagged pair list is well-formed: every pair well-formed, and no index
pair repeated. -/
def pairsWf (rooms : List Room) (P : List IPair) : Prop :=
  (∀ p ∈ P, pairIndexWf rooms p) ∧ (P.map (fun p => (p.1.1, p.2.1))).Nodup

/-- The graph node holding a room's fields and a given adjacency list. -/
def nodeWith (r : Room) (adj : List String) : GNode :=
  ⟨r.room_id, r.building, r.capacity, r.floor, r.facilities, adj⟩

/-- The visualizer node holding a room's fields and a given adjacency
list. -/
def vnodeWith (r : Room) (adj : List String) : VNode :=
  ⟨r.room_id, r.building, r.capacity, r.facilities, adj⟩

/-! ## Concrete sample data used by the witnesses -/

/-- No facility requested. -/
def facNone : Facilities := ⟨false, false, false, false, false, false⟩

/-- Every facility present. -/
def facAll : Facilities := ⟨true, true, true, true, true, true⟩

/-- A 50-seat room. -/
def roomA50 : Room := ⟨"R50", "Main", 50, 1, facAll⟩

/-- A 60-seat room. -/
def roomB60 : Room := ⟨"R60", "Main", 60, 1, facAll⟩

/-- A 100-seat room. -/
def roomC100 : Room := ⟨"R100", "Science", 100, 1, facAll⟩

/-- A request for 48 seats, no building preference, no facility required. -/
def reqCap48 : Request := ⟨"Algo", "Ada", "2025-01-01", "09:00", "10:00", 48, "", facNone⟩

/-- The node of room "101" as stored in a booking record. -/
def node101 : GNode := ⟨"101", "Main", 50, 1, facAll, []⟩

/-- An existing booking for room "101" on "2025-01-01" at 09:00-10:00. -/
def booking101 : Booking :=
  ⟨"Calculus", "Ada", "2025-01-01", "09:00", "10:00", 40, "", facNone, node101, "BK0", "t0"⟩

/-- The `i`-th sample log entry (pairwise distinct timestamps). -/
def logAt (i : Nat) : LogEntry := ⟨"info", "m", String.mk (List.replicate i 'a')⟩

/-- The first `n` sample log entries. -/
def logList (n : Nat) : List LogEntry := (List.range n).map logAt

/-- A request whose end time is not after its start time. -/
def reqBadTime : Request := ⟨"Algo", "Ada", "2025-01-01", "10:00", "09:00", 10, "", facNone⟩

/-! # Theorems -/

/-! ## Bounded log queue -/

theorem addLog_head? (e : LogEntry) (q : List LogEntry) : (addLog e q).head? = some e := by
  simp only [addLog]
  by_cases h : (e :: q).length > 100
  · rw [if_pos h]
    cases q with
    | nil => simp at h
    | cons b bs => simp [List.dropLast]
  · rw [if_neg h]
    rfl

theorem addLog_eq_take (e : LogEntry) (q : List LogEntry) (h : q.length ≤ 100) :
    addLog e q = (e :: q).take 100 := by
  simp only [addLog]
  by_cases h' : (e :: q).length > 100
  · rw [if_pos h']
    have hq : q.length = 100 := by
      simp only [List.length_cons] at h'
      omega
    rw [List.dropLast_eq_take]
    simp [hq]
  · rw [if_neg h']
    have hle : (e :: q).length ≤ 100 := by omega
    exact (List.take_of_length_le hle).symm

theorem addLog_length_le (e : LogEntry) (q : List LogEntry) (h : q.length ≤ 100) :
    (addLog e q).length ≤ 100 := by
  rw [addLog_eq_take e q h]
  simp [List.length_take]

theorem take_append_take (A B : List LogEntry) (n : Nat) :
    (A ++ B.take n).take n = (A ++ B).take n := by
  rw [List.take_append_eq_append_take, List.take_append_eq_append_take, List.take_take]
  congr 1
  exact congrArg (fun m => List.take m B) (Nat.min_eq_left (Nat.sub_le n A.length))

theorem logs_foldl (es : List LogEntry) (q : List LogEntry) (h : q.length ≤ 100) :
    List.foldl (fun acc e => addLog e acc) q es = (es.reverse ++ q).take 100 := by
  induction es generalizing q with
  | nil => simp [List.take_of_length_le h]
  | cons e es ih =>
    rw [List.foldl_cons, ih (addLog e q) (addLog_length_le e q h), addLog_eq_take e q h,
      List.reverse_cons, List.append_assoc]
    exact take_append_take es.reverse (e :: q) 100

/-- C6: the log queue never exceeds 100 entries: `addLog` prepends the new
entry at the front, and when the resulting size exceeds 100 the oldest
(tail) entry is evicted; after 101 insertions into an initially empty queue
the first-inserted entry is absent and the 101st entry is at the front. -/
theorem c6_log_queue_bound :
    (∀ (e : LogEntry) (q : List LogEntry), (addLog e q).head? = some e) ∧
    (∀ (e : LogEntry) (q : List LogEntry), 100 < (e :: q).length →
      addLog e q = (e :: q).dropLast) ∧
    (∀ (e : LogEntry) (q : List LogEntry), q.length ≤ 100 → (addLog e q).length ≤ 100) ∧
    (∀ es : List LogEntry, List.foldl (fun acc e => addLog e acc) [] es = es.reverse.take 100) ∧
    (∀ (es : List LogEntry) (e : LogEntry), es.length = 101 → es.head? = some e →
      e ∉ es.tail →
      e ∉ List.foldl (fun acc e => addLog e acc) [] es ∧
        (List.foldl (fun acc e => addLog e acc) [] es).head? = es.getLast?) := by
  refine ⟨addLog_head?, ?_, addLog_length_le, ?_, ?_⟩
  · intro e q h
    simp only [addLog]
    rw [if_pos h]
  · intro es
    rw [logs_foldl es [] (by simp)]
    simp
  · intro es e hlen _ htail
    have hfold : List.foldl (fun acc e => addLog e acc) [] es = es.tail.reverse := by
      rw [logs_foldl es [] (by simp)]
      simp only [List.append_nil, List.take_reverse, hlen]
      norm_num
    constructor
    · rw [hfold, List.mem_reverse]
      exact htail
    · rw [logs_foldl es [] (by simp)]
      simp only [List.append_nil, List.head?_take]
      rw [if_neg (by omega), List.head?_reverse]

theorem c6_log_queue_bound_witness :
    logAt 0 ∉ List.foldl (fun acc e => addLog e acc) [] (logList 101) ∧
      (List.foldl (fun acc e => addLog e acc) [] (logList 101)).head? =
        (logList 101).getLast? :=
  c6_log_queue_bound.2.2.2.2 (logList 101) (logAt 0) (by simp [logList]) (by decide)
    (by decide)

/-- C10: the 100-entry bound is enforced only on insertion: loading logs
from the remote source or restoring them from the local cache replaces the
queue unchanged, a loaded sequence longer than 100 entries leaves the queue
over the bound, and each subsequent `addLog` removes only the one tail
entry. -/
theorem c10_log_bound_only_on_insert :
    (∀ fetched : List LogEntry, loadLogs fetched = fetched) ∧
    (∀ cached : List LogEntry, restoreLogsFromCache cached = cached) ∧
    (∀ fetched : List LogEntry, 100 < fetched.length → 100 < (loadLogs fetched).length) ∧
    (∀ (q : List LogEntry) (e : LogEntry), 100 ≤ q.length →
      addLog e q = (e :: q).dropLast ∧ (addLog e q).length = q.length) := by
  refine ⟨fun _ => rfl, fun _ => rfl, fun _ h => h, ?_⟩
  intro q e h
  have h' : (e :: q).length > 100 := by
    simp only [List.length_cons]
    omega
  constructor
  · simp only [addLog]
    rw [if_pos h']
  · simp only [addLog]
    rw [if_pos h', List.length_dropLast, List.length_cons]
    omega

theorem c10_log_bound_only_on_insert_witness :
    (100 < (loadLogs (logList 101)).length) ∧
      (addLog (logAt 101) (logList 101) = ((logAt 101) :: logList 101).dropLast ∧
        (addLog (logAt 101) (logList 101)).length = (logList 101).length) :=
  ⟨c10_log_bound_only_on_insert.2.2.1 (logList 101) (by simp [logList]),
    c10_log_bound_only_on_insert.2.2.2 (logList 101) (logAt 101) (by simp [logList])⟩

/-! ## Availability -/

theorem blocksBooking_eq_true (k d s e : String) (b : Booking) :
    blocksBooking k d s e b = true ↔
      b.room.room_id = k ∧ b.date = d ∧
        ¬(strLe e b.start_time = true ∨ strLe b.end_time s = true) := by
  simp only [blocksBooking]
  split_ifs with h1 h2
  · simp only [false_iff]
    rintro ⟨hk, -⟩
    exact h1 hk
  · simp only [false_iff]
    rintro ⟨-, hd, -⟩
    exact h2 hd
  · rw [not_not] at h1 h2
    simp [h1, h2, not_or]

/-- C3: `checkAvailability` returns `false` exactly when some ledger record
has the same `room_id` and date and the half-open intervals overlap (i.e.
unless requested end ≤ existing start or requested start ≥ existing end);
with an existing booking for room "101" on "2025-01-01" at 09:00-10:00, a
09:30-10:30 request for the same room and date is unavailable while an
abutting 10:00-11:00 request is available. -/
theorem c3_check_availability :
    (∀ (k d s e : String) (scheds : List Booking),
      checkAvailability k d s e scheds = false ↔
        ∃ b ∈ scheds, b.room.room_id = k ∧ b.date = d ∧
          ¬(strLe e b.start_time = true ∨ strLe b.end_time s = true)) ∧
    checkAvailability "101" "2025-01-01" "09:30" "10:30" [booking101] = false ∧
    checkAvailability "101" "2025-01-01" "10:00" "11:00" [booking101] = true := by
  refine ⟨?_, by decide, by decide⟩
  intro k d s e scheds
  simp only [checkAvailability, Bool.not_eq_false', List.any_eq_true, blocksBooking_eq_true]

/-! ## Error handling -/

/-- C7: validation and no-candidate failures are structured outcomes: a
request whose end time is not after its start time is rejected before
`allocateRoom` is invoked, and when no candidate survives the filters
`allocateRoom` returns a failure value carrying the "no suitable room"
message. -/
theorem c7_structured_failures :
    (∀ (graph : GraphMap) (scheds : List Booking) (req : Request) (bid : String),
      strLe req.end_time req.start_time = true →
      handleAllocationSubmit graph scheds req bid =
        .validationError "Invalid Time" "End time must be after start time.") ∧
    (∀ (graph : GraphMap) (scheds : List Booking) (req : Request) (bid : String),
      strLe req.end_time req.start_time = false →
      handleAllocationSubmit graph scheds req bid =
        .result (allocateRoom graph scheds req bid)) ∧
    (∀ (graph : GraphMap) (scheds : List Booking) (req : Request) (bid : String),
      suitableRooms graph scheds req = [] →
      allocateRoom graph scheds req bid =
        .failure "No rooms available matching your requirements. Try adjusting your criteria or selecting a different time slot.") := by
  refine ⟨?_, ?_, ?_⟩
  · intro graph scheds req bid h
    simp [handleAllocationSubmit, h]
  · intro graph scheds req bid h
    simp [handleAllocationSubmit, h]
  · intro graph scheds req bid h
    simp [allocateRoom, h]

theorem c7_structured_failures_witness :
    handleAllocationSubmit [] [] reqBadTime "BK" =
      .validationError "Invalid Time" "End time must be after start time." ∧
    allocateRoom [] [] reqBadTime "BK" =
      .failure "No rooms available matching your requirements. Try adjusting your criteria or selecting a different time slot." :=
  ⟨c7_structured_failures.1 [] [] reqBadTime "BK" (by decide),
    c7_structured_failures.2.2 [] [] reqBadTime "BK" rfl⟩

/-! ## Conflict detector -/

theorem conflictPair_eq_true (b1 b2 : Booking) :
    conflictPair b1 b2 = true ↔
      b1.room.room_id = b2.room.room_id ∧ b1.date = b2.date ∧
        ¬(strLe b1.end_time b2.start_time = true ∨ strLe b2.end_time b1.start_time = true) := by
  simp only [conflictPair]
  split_ifs with h1
  · simp [h1.1, h1.2, not_or]
  · simp only [false_iff]
    rintro ⟨hr, hd, -⟩
    exact h1 ⟨hr, hd⟩

theorem mem_detectConflicts (l : List Booking) (p : Booking × Booking) :
    p ∈ detectConflicts l ↔
      ∃ i j : Nat, i < j ∧ ∃ b1 b2, l[i]? = some b1 ∧ l[j]? = some b2 ∧ p = (b1, b2) ∧
        conflictPair b1 b2 = true := by
  simp only [detectConflicts, List.mem_flatMap, List.mem_range]
  constructor
  · rintro ⟨i, -, j, -, hmem⟩
    refine ⟨i, j, ?_⟩
    split at hmem
    · rename_i hij
      refine ⟨hij, ?_⟩
      split at hmem
      · rename_i b1 b2 h1 h2
        split at hmem
        · rename_i hc
          simp only [List.mem_singleton] at hmem
          exact ⟨b1, b2, h1, h2, hmem, hc⟩
        · simp at hmem
      · simp at hmem
    · simp at hmem
  · rintro ⟨i, j, hij, b1, b2, h1, h2, rfl, hc⟩
    have hjl : j < l.length := by
      have := List.getElem?_eq_some_iff.mp h2
      exact this.1
    refine ⟨i, by omega, j, hjl, ?_⟩
    rw [if_pos hij, h1, h2]
    simp [hc]

/-- C5: `detectConflicts` returns exactly the pairs of ledger records at
positions `i < j` sharing a room and a date with half-open-overlapping
intervals; it is empty on an empty or single-entry ledger, and a ledger of
exactly two identical-interval bookings for the same room and date yields
exactly the one pair. -/
theorem c5_detect_conflicts :
    (∀ (l : List Booking) (p : Booking × Booking),
      p ∈ detectConflicts l ↔
        ∃ i j : Nat, i < j ∧ ∃ b1 b2, l[i]? = some b1 ∧ l[j]? = some b2 ∧ p = (b1, b2) ∧
          b1.room.room_id = b2.room.room_id ∧ b1.date = b2.date ∧
          ¬(strLe b1.end_time b2.start_time = true ∨
            strLe b2.end_time b1.start_time = true)) ∧
    detectConflicts [] = [] ∧
    (∀ b : Booking, detectConflicts [b] = []) ∧
    (∀ b1 b2 : Booking, b1.room.room_id = b2.room.room_id → b1.date = b2.date →
      b1.start_time = b2.start_time → b1.end_time = b2.end_time →
      strLt b1.start_time b1.end_time = true →
      detectConflicts [b1, b2] = [(b1, b2)]) := by
  refine ⟨?_, rfl, fun b => rfl, ?_⟩
  · intro l p
    rw [mem_detectConflicts]
    constructor
    · rintro ⟨i, j, hij, b1, b2, h1, h2, rfl, hc⟩
      exact ⟨i, j, hij, b1, b2, h1, h2, rfl, (conflictPair_eq_true b1 b2).mp hc⟩
    · rintro ⟨i, j, hij, b1, b2, h1, h2, rfl, hc⟩
      exact ⟨i, j, hij, b1, b2, h1, h2, rfl, (conflictPair_eq_true b1 b2).mpr hc⟩
  · intro b1 b2 hr hd hs he hlt
    have h1 : strLe b1.end_time b2.start_time = false := by
      rw [← hs]
      simp [strLe, hlt]
    have h2 : strLe b2.end_time b1.start_time = false := by
      rw [← he]
      simp [strLe, hlt]
    have hcp : conflictPair b1 b2 = true := by
      simp [conflictPair, hr, hd, h1, h2]
    simp [detectConflicts, List.range_succ, hcp]

theorem c5_detect_conflicts_witness :
    detectConflicts [booking101, booking101] = [(booking101, booking101)] :=
  c5_detect_conflicts.2.2.2 booking101 booking101 rfl rfl rfl rfl (by decide)

/-! ## Tightest-fit selection -/

theorem selectBest_cons (c : Nat) (r x : GNode) (xs : List GNode) :
    selectBest c r (x :: xs) =
      selectBest c (if absDiff x.capacity c < absDiff r.capacity c then x else r) xs := rfl

theorem selectBest_le_init (c : Nat) (r : GNode) (rs : List GNode) :
    absDiff (selectBest c r rs).capacity c ≤ absDiff r.capacity c := by
  induction rs generalizing r with
  | nil => exact le_refl _
  | cons x xs ih =>
    rw [selectBest_cons]
    by_cases h : absDiff x.capacity c < absDiff r.capacity c
    · rw [if_pos h]
      exact le_trans (ih x) (le_of_lt h)
    · rw [if_neg h]
      exact ih r

theorem selectBest_mem (c : Nat) (r : GNode) (rs : List GNode) :
    selectBest c r rs ∈ r :: rs := by
  induction rs generalizing r with
  | nil => simp [selectBest]
  | cons x xs ih =>
    rw [selectBest_cons]
    by_cases h : absDiff x.capacity c < absDiff r.capacity c
    · rw [if_pos h]
      exact List.mem_cons_of_mem r (ih x)
    · rw [if_neg h]
      rcases List.mem_cons.mp (ih r) with h' | h'
      · rw [h']
        exact List.mem_cons_self r _
      · exact List.mem_cons_of_mem r (List.mem_cons_of_mem x h')

theorem selectBest_min (c : Nat) (r : GNode) (rs : List GNode) :
    ∀ x ∈ r :: rs, absDiff (selectBest c r rs).capacity c ≤ absDiff x.capacity c := by
  induction rs generalizing r with
  | nil =>
    intro x hx
    rw [List.mem_singleton] at hx
    rw [hx]
    exact le_refl _
  | cons y ys ih =>
    intro x hx
    rw [selectBest_cons]
    have hle : absDiff (if absDiff y.capacity c < absDiff r.capacity c then y else r).capacity c
        ≤ absDiff r.capacity c := by
      split
      · next h => exact le_of_lt h
      · exact le_refl _
    have hley : absDiff (if absDiff y.capacity c < absDiff r.capacity c then y else r).capacity c
        ≤ absDiff y.capacity c := by
      split
      · exact le_refl _
      · next h => exact le_of_not_lt h
    rcases List.mem_cons.mp hx with rfl | hx'
    · exact le_trans (selectBest_le_init c _ ys) hle
    · rcases List.mem_cons.mp hx' with rfl | hx''
      · exact le_trans (selectBest_le_init c _ ys) hley
      · exact ih _ x (List.mem_cons_of_mem _ hx'')

theorem selectBest_first (c : Nat) (r : GNode) (rs : List GNode) :
    (r :: rs).find?
      (fun x => absDiff x.capacity c == absDiff (selectBest c r rs).capacity c) =
      some (selectBest c r rs) := by
  induction rs generalizing r with
  | nil =>
    simp [selectBest, List.find?]
  | cons x xs ih =>
    rw [selectBest_cons]
    by_cases h : absDiff x.capacity c < absDiff r.capacity c
    · rw [if_pos h]
      have hlt : absDiff (selectBest c x xs).capacity c < absDiff r.capacity c :=
        lt_of_le_of_lt (selectBest_le_init c x xs) h
      have hpr : (absDiff r.capacity c == absDiff (selectBest c x xs).capacity c) = false := by
        simp only [beq_eq_false_iff_ne, ne_eq]
        omega
      simp only [List.find?_cons, hpr]
      exact ih x
    · rw [if_neg h]
      have ihr := ih r
      by_cases hpr : (absDiff r.capacity c == absDiff (selectBest c r xs).capacity c) = true
      · have h1 : r = selectBest c r xs := by
          simp only [List.find?_cons, hpr] at ihr
          exact Option.some.inj ihr
        simp only [List.find?_cons, hpr]
        rw [← h1]
      · have hprf : (absDiff r.capacity c == absDiff (selectBest c r xs).capacity c) = false :=
          Bool.eq_false_iff.mpr hpr
        simp only [List.find?_cons, hprf] at ihr ⊢
        have hpx : (absDiff x.capacity c == absDiff (selectBest c r xs).capacity c) = false := by
          simp only [beq_eq_false_iff_ne, ne_eq] at hprf ⊢
          have hinit := selectBest_le_init c r xs
          omega
        simp only [hpx]
        exact ihr

/-! ## The candidate filter -/

theorem mem_suitableRooms (graph : GraphMap) (scheds : List Booking) (req : Request)
    (x : GNode) :
    x ∈ suitableRooms graph scheds req ↔
      ∃ k, (k, x) ∈ graph ∧ isSuitable scheds req k x = true := by
  simp only [suitableRooms, List.mem_filterMap]
  constructor
  · rintro ⟨p, hp, hfx⟩
    split at hfx
    · next hs =>
      have hx : p.2 = x := Option.some.inj hfx
      refine ⟨p.1, ?_, hx ▸ hs⟩
      have hpx : (p.1, x) = p := by
        rw [← hx]
      rw [hpx]
      exact hp
    · exact absurd hfx (by simp)
  · rintro ⟨k, hk, hs⟩
    exact ⟨(k, x), hk, by simp [hs]⟩

theorem bool_imp_iff (x y : Bool) : ((!x || y) = true) ↔ (x = true → y = true) := by
  cases x <;> cases y <;> simp

theorem facilitiesMatch_eq_true (a b : Facilities) :
    facilitiesMatch a b = true ↔
      (a.projector = true → b.projector = true) ∧ (a.lab = true → b.lab = true) ∧
      (a.accessible = true → b.accessible = true) ∧
      (a.whiteboard = true → b.whiteboard = true) ∧
      (a.audio = true → b.audio = true) ∧ (a.smartboard = true → b.smartboard = true) := by
  simp only [facilitiesMatch, Bool.and_eq_true, bool_imp_iff]
  tauto

theorem checkAvailability_eq_true (k d s e : String) (scheds : List Booking) :
    checkAvailability k d s e scheds = true ↔
      ∀ b ∈ scheds, b.room.room_id = k → b.date = d →
        (strLe e b.start_time = true ∨ strLe b.end_time s = true) := by
  simp only [checkAvailability, Bool.not_eq_true', List.any_eq_false,
    Bool.not_eq_true]
  constructor
  · intro h b hb hr hd
    have := h b hb
    rw [Bool.eq_false_iff] at this
    by_contra hc
    exact this ((blocksBooking_eq_true k d s e b).mpr ⟨hr, hd, hc⟩)
  · intro h b hb
    rw [Bool.eq_false_iff]
    intro hbl
    obtain ⟨hr, hd, hc⟩ := (blocksBooking_eq_true k d s e b).mp hbl
    exact hc (h b hb hr hd)

theorem isSuitable_eq_true (scheds : List Booking) (req : Request) (k : String)
    (room : GNode) :
    isSuitable scheds req k room = true ↔
      req.capacity ≤ room.capacity ∧
      (req.building ≠ "" → room.building = req.building) ∧
      facilitiesMatch req.facilities room.facilities = true ∧
      checkAvailability k req.date req.start_time req.end_time scheds = true := by
  simp only [isSuitable]
  split_ifs with h1 h2 h3
  · simp only [false_iff]
    rintro ⟨hc, -⟩
    omega
  · simp only [false_iff]
    rintro ⟨-, hb, -⟩
    exact h2.2 (hb h2.1)
  · simp only [false_iff]
    rintro ⟨-, -, hf, -⟩
    simp [hf] at h3
  · push_neg at h2
    simp only [Bool.not_eq_true'] at h3
    rw [Bool.not_eq_false] at h3
    constructor
    · intro hca
      exact ⟨le_of_not_lt h1, h2, h3, hca⟩
    · rintro ⟨-, -, -, hca⟩
      exact hca

/-! ## Graph well-formedness: keys carry their node's room_id -/

theorem mapSet_key_wf (m : GraphMap) (k : String) (v : GNode)
    (hm : ∀ p ∈ m, p.2.room_id = p.1) (hv : v.room_id = k) :
    ∀ p ∈ mapSet m k v, p.2.room_id = p.1 := by
  induction m with
  | nil =>
    intro p hp
    rw [List.mem_singleton.mp hp]
    exact hv
  | cons q rest ih =>
    intro p hp
    simp only [mapSet] at hp
    split at hp
    · rcases List.mem_cons.mp hp with rfl | hp'
      · exact hv
      · exact hm p (List.mem_cons_of_mem q hp')
    · rcases List.mem_cons.mp hp with h' | hp'
      · rw [h']
        exact hm q (List.mem_cons_self q rest)
      · exact ih (fun p' hp'2 => hm p' (List.mem_cons_of_mem q hp'2)) p hp'

theorem pushAdj_key_wf (m : GraphMap) (k rid : String)
    (hm : ∀ p ∈ m, p.2.room_id = p.1) :
    ∀ p ∈ pushAdj m k rid, p.2.room_id = p.1 := by
  intro p hp
  simp only [pushAdj, List.mem_map] at hp
  obtain ⟨q, hq, hpq⟩ := hp
  have := hm q hq
  split at hpq
  · rw [← hpq]
    simpa using this
  · rw [← hpq]
    exact this

theorem pairStep_key_wf (m : GraphMap) (r1 r2 : Room)
    (hm : ∀ p ∈ m, p.2.room_id = p.1) :
    ∀ p ∈ pairStep m r1 r2, p.2.room_id = p.1 := by
  simp only [pairStep]
  split_ifs <;>
    (repeat
      first
        | exact hm
        | apply pushAdj_key_wf)

theorem buildEdges_key_wf (l : List Room) (m : GraphMap)
    (hm : ∀ p ∈ m, p.2.room_id = p.1) :
    ∀ p ∈ buildEdges l m, p.2.room_id = p.1 := by
  induction l generalizing m with
  | nil => exact hm
  | cons r rest ih =>
    simp only [buildEdges]
    apply ih
    have : ∀ (rs : List Room) (m' : GraphMap), (∀ p ∈ m', p.2.room_id = p.1) →
        ∀ p ∈ rs.foldl (fun acc r2 => pairStep acc r r2) m', p.2.room_id = p.1 := by
      intro rs
      induction rs with
      | nil =>
        intro m' hm'
        exact hm'
      | cons r2 rs2 ih2 =>
        intro m' hm'
        exact ih2 (pairStep m' r r2) (pairStep_key_wf m' r r2 hm')
    exact this rest m hm

theorem buildRoomsGraph_key_wf (rooms : List Room) :
    ∀ p ∈ buildRoomsGraph rooms, p.2.room_id = p.1 := by
  unfold buildRoomsGraph
  apply buildEdges_key_wf
  have : ∀ (rs : List Room) (m : GraphMap), (∀ p ∈ m, p.2.room_id = p.1) →
      ∀ p ∈ rs.foldl (fun acc r => mapSet acc r.room_id r.toNode) m, p.2.room_id = p.1 := by
    intro rs
    induction rs with
    | nil =>
      intro m hm
      exact hm
    | cons r rs2 ih =>
      intro m hm
      exact ih (mapSet m r.room_id r.toNode) (mapSet_key_wf m _ _ hm rfl)
  exact this rooms [] (by simp)

/-! ## Node-insertion phase of `buildRoomsGraph` -/

theorem mapSet_fresh (m : GraphMap) (k : String) (v : GNode)
    (h : ∀ p ∈ m, p.1 ≠ k) : mapSet m k v = m ++ [(k, v)] := by
  induction m with
  | nil => rfl
  | cons q rest ih =>
    simp only [mapSet]
    rw [if_neg (h q (List.mem_cons_self q rest)), ih (fun p hp => h p (List.mem_cons_of_mem q hp))]
    rfl

theorem phase1_eq (rooms : List Room) (h : (rooms.map Room.room_id).Nodup) :
    rooms.foldl (fun m r => mapSet m r.room_id r.toNode) [] =
      rooms.map (fun r => (r.room_id, r.toNode)) := by
  suffices H : ∀ (rs : List Room) (m : GraphMap), (rs.map Room.room_id).Nodup →
      (∀ r ∈ rs, ∀ p ∈ m, p.1 ≠ r.room_id) →
      rs.foldl (fun acc r => mapSet acc r.room_id r.toNode) m =
        m ++ rs.map (fun r => (r.room_id, r.toNode)) by
    simpa using H rooms [] h (by simp)
  intro rs
  induction rs with
  | nil =>
    intro m _ _
    simp
  | cons r rest ih =>
    intro m hnd hfresh
    rw [List.map_cons] at hnd
    have hnd' := List.nodup_cons.mp hnd
    simp only [List.foldl_cons]
    rw [mapSet_fresh m r.room_id r.toNode
      (fun p hp => hfresh r (List.mem_cons_self r rest) p hp)]
    rw [ih (m ++ [(r.room_id, r.toNode)]) hnd'.2 ?_]
    · simp
    · intro r' hr' p hp
      rcases List.mem_append.mp hp with hpm | hpu
      · exact hfresh r' (List.mem_cons_of_mem r hr') p hpm
      · rw [List.mem_singleton.mp hpu]
        intro hcontra
        apply hnd'.1
        have heq : r.room_id = r'.room_id := hcontra
        rw [heq]
        exact List.mem_map_of_mem Room.room_id hr'

theorem keys_pushAdj (m : GraphMap) (k rid : String) :
    (pushAdj m k rid).map Prod.fst = m.map Prod.fst := by
  induction m with
  | nil => rfl
  | cons q rest ih =>
    simp only [pushAdj, List.map_cons] at ih ⊢
    split
    · exact congrArg (List.cons q.1) ih
    · exact congrArg (List.cons q.1) ih

theorem keys_pairStep (m : GraphMap) (r1 r2 : Room) :
    (pairStep m r1 r2).map Prod.fst = m.map Prod.fst := by
  simp only [pairStep]
  split_ifs <;> simp [keys_pushAdj]

theorem keys_buildEdges (l : List Room) (m : GraphMap) :
    (buildEdges l m).map Prod.fst = m.map Prod.fst := by
  induction l generalizing m with
  | nil => rfl
  | cons r rest ih =>
    simp only [buildEdges]
    rw [ih]
    suffices H : ∀ (rs : List Room) (m' : GraphMap),
        (rs.foldl (fun acc r2 => pairStep acc r r2) m').map Prod.fst = m'.map Prod.fst by
      exact H rest m
    intro rs
    induction rs with
    | nil =>
      intro m'
      rfl
    | cons r2 rs2 ih2 =>
      intro m'
      rw [List.foldl_cons, ih2, keys_pairStep]

theorem buildRoomsGraph_keys (rooms : List Room) (h : (rooms.map Room.room_id).Nodup) :
    (buildRoomsGraph rooms).map Prod.fst = rooms.map Room.room_id := by
  unfold buildRoomsGraph
  rw [keys_buildEdges, phase1_eq rooms h, List.map_map]
  rfl

/-! ## Allocation success facts -/

theorem allocateRoom_success (graph : GraphMap) (scheds : List Booking) (req : Request)
    (bid : String) (r : GNode) (rbid : String)
    (h : allocateRoom graph scheds req bid = .success r rbid) :
    ∃ a as, suitableRooms graph scheds req = a :: as ∧ r = selectBest req.capacity a as := by
  rcases hS : suitableRooms graph scheds req with _ | ⟨a, as⟩
  · rw [allocateRoom, hS] at h
    exact absurd h (by simp)
  · rw [allocateRoom, hS] at h
    simp only [AllocResult.success.injEq] at h
    exact ⟨a, as, rfl, h.1.symm⟩

/-- C1: whenever `allocateRoom` succeeds, the returned room satisfies all
four filters: capacity at least the requested capacity; exact
(case-sensitive) building match when a non-empty building is requested;
every facility requested `true` present; and no ledger booking for that
room and date overlapping the requested half-open interval. -/
theorem c1_allocation_filters (rooms : List Room) (scheds : List Booking) (req : Request)
    (bid : String) (r : GNode) (rbid : String)
    (h : allocateRoom (buildRoomsGraph rooms) scheds req bid = .success r rbid) :
    req.capacity ≤ r.capacity ∧
    (req.building ≠ "" → r.building = req.building) ∧
    (req.facilities.projector = true → r.facilities.projector = true) ∧
    (req.facilities.lab = true → r.facilities.lab = true) ∧
    (req.facilities.accessible = true → r.facilities.accessible = true) ∧
    (req.facilities.whiteboard = true → r.facilities.whiteboard = true) ∧
    (req.facilities.audio = true → r.facilities.audio = true) ∧
    (req.facilities.smartboard = true → r.facilities.smartboard = true) ∧
    (∀ b ∈ scheds, b.room.room_id = r.room_id → b.date = req.date →
      (strLe req.end_time b.start_time = true ∨
        strLe b.end_time req.start_time = true)) := by
  obtain ⟨a, as, hS, hr⟩ := allocateRoom_success _ _ _ _ _ _ h
  have hin : r ∈ suitableRooms (buildRoomsGraph rooms) scheds req := by
    rw [hS, hr]
    exact selectBest_mem _ a as
  obtain ⟨k, hk, hs⟩ := (mem_suitableRooms _ _ _ r).mp hin
  have hkey : r.room_id = k := buildRoomsGraph_key_wf rooms (k, r) hk
  obtain ⟨hc, hb, hf, hav⟩ := (isSuitable_eq_true _ _ _ _).mp hs
  obtain ⟨h1, h2, h3, h4, h5, h6⟩ := (facilitiesMatch_eq_true _ _).mp hf
  rw [← hkey] at hav
  exact ⟨hc, hb, h1, h2, h3, h4, h5, h6,
    (checkAvailability_eq_true _ _ _ _ _).mp hav⟩

theorem c1_allocation_filters_witness :
    reqCap48.capacity ≤ (⟨"R50", "Main", 50, 1, facAll, ["R60"]⟩ : GNode).capacity ∧
    (reqCap48.building ≠ "" →
      (⟨"R50", "Main", 50, 1, facAll, ["R60"]⟩ : GNode).building = reqCap48.building) ∧
    (reqCap48.facilities.projector = true →
      (⟨"R50", "Main", 50, 1, facAll, ["R60"]⟩ : GNode).facilities.projector = true) ∧
    (reqCap48.facilities.lab = true →
      (⟨"R50", "Main", 50, 1, facAll, ["R60"]⟩ : GNode).facilities.lab = true) ∧
    (reqCap48.facilities.accessible = true →
      (⟨"R50", "Main", 50, 1, facAll, ["R60"]⟩ : GNode).facilities.accessible = true) ∧
    (reqCap48.facilities.whiteboard = true →
      (⟨"R50", "Main", 50, 1, facAll, ["R60"]⟩ : GNode).facilities.whiteboard = true) ∧
    (reqCap48.facilities.audio = true →
      (⟨"R50", "Main", 50, 1, facAll, ["R60"]⟩ : GNode).facilities.audio = true) ∧
    (reqCap48.facilities.smartboard = true →
      (⟨"R50", "Main", 50, 1, facAll, ["R60"]⟩ : GNode).facilities.smartboard = true) ∧
    (∀ b ∈ ([] : List Booking),
      b.room.room_id = (⟨"R50", "Main", 50, 1, facAll, ["R60"]⟩ : GNode).room_id →
      b.date = reqCap48.date →
      (strLe reqCap48.end_time b.start_time = true ∨
        strLe b.end_time reqCap48.start_time = true)) :=
  c1_allocation_filters [roomA50, roomB60, roomC100] [] reqCap48 "BK1"
    ⟨"R50", "Main", 50, 1, facAll, ["R60"]⟩ "BK1" (by decide)

/-- C2: among the candidates surviving the four filters, `allocateRoom`
selects the room minimizing the absolute capacity difference, breaking ties
by the first candidate in iteration order; the graph's iteration order is
the Room Store order when room ids are pairwise distinct; and requesting
capacity 48 among eligible candidates of capacities 50, 60 and 100 selects
the 50-seat room. -/
theorem c2_tightest_fit :
    (∀ (graph : GraphMap) (scheds : List Booking) (req : Request) (bid : String)
        (r : GNode) (rbid : String),
      allocateRoom graph scheds req bid = .success r rbid →
      r ∈ suitableRooms graph scheds req ∧
      (∀ x ∈ suitableRooms graph scheds req,
        absDiff r.capacity req.capacity ≤ absDiff x.capacity req.capacity) ∧
      (suitableRooms graph scheds req).find?
        (fun x => absDiff x.capacity req.capacity == absDiff r.capacity req.capacity) =
        some r) ∧
    (∀ rooms : List Room, (rooms.map Room.room_id).Nodup →
      (buildRoomsGraph rooms).map Prod.fst = rooms.map Room.room_id) ∧
    allocateRoom (buildRoomsGraph [roomA50, roomB60, roomC100]) [] reqCap48 "BK1" =
      .success ⟨"R50", "Main", 50, 1, facAll, ["R60"]⟩ "BK1" := by
  refine ⟨?_, buildRoomsGraph_keys, by decide⟩
  intro graph scheds req bid r rbid h
  obtain ⟨a, as, hS, hr⟩ := allocateRoom_success _ _ _ _ _ _ h
  refine ⟨?_, ?_, ?_⟩
  · rw [hS, hr]
    exact selectBest_mem _ a as
  · intro x hx
    rw [hS] at hx
    rw [hr]
    exact selectBest_min _ a as x hx
  · rw [hS, hr]
    exact selectBest_first _ a as

theorem c2_tightest_fit_witness :
    ((⟨"R50", "Main", 50, 1, facAll, ["R60"]⟩ : GNode) ∈
      suitableRooms (buildRoomsGraph [roomA50, roomB60, roomC100]) [] reqCap48 ∧
      (∀ x ∈ suitableRooms (buildRoomsGraph [roomA50, roomB60, roomC100]) [] reqCap48,
        absDiff (⟨"R50", "Main", 50, 1, facAll, ["R60"]⟩ : GNode).capacity reqCap48.capacity ≤
          absDiff x.capacity reqCap48.capacity) ∧
      (suitableRooms (buildRoomsGraph [roomA50, roomB60, roomC100]) [] reqCap48).find?
        (fun x => absDiff x.capacity reqCap48.capacity ==
          absDiff (⟨"R50", "Main", 50, 1, facAll, ["R60"]⟩ : GNode).capacity reqCap48.capacity) =
        some ⟨"R50", "Main", 50, 1, facAll, ["R60"]⟩) ∧
    (buildRoomsGraph [roomA50, roomB60, roomC100]).map Prod.fst =
      [roomA50, roomB60, roomC100].map Room.room_id :=
  ⟨c2_tightest_fit.1 (buildRoomsGraph [roomA50, roomB60, roomC100]) [] reqCap48 "BK1"
    ⟨"R50", "Main", 50, 1, facAll, ["R60"]⟩ "BK1" (by decide),
    c2_tightest_fit.2.1 [roomA50, roomB60, roomC100] (by decide)⟩

/-! ## Last-write-wins of the map keyed by room_id -/

theorem mapGet_cons_of_ne (q : String × GNode) (rest : GraphMap) (k : String)
    (h : ¬ q.1 = k) : mapGet (q :: rest) k = mapGet rest k := by
  simp only [mapGet, List.find?_cons, decide_eq_false h]

theorem mapGet_cons_of_eq (q : String × GNode) (rest : GraphMap) (k : String)
    (h : q.1 = k) : mapGet (q :: rest) k = some q.2 := by
  simp only [mapGet, List.find?_cons, decide_eq_true h]
  rfl

theorem mapGet_mapSet (m : GraphMap) (k k' : String) (v : GNode) :
    mapGet (mapSet m k v) k' = if k' = k then some v else mapGet m k' := by
  induction m with
  | nil =>
    by_cases h : k' = k
    · rw [if_pos h]
      show mapGet [(k, v)] k' = some v
      exact mapGet_cons_of_eq (k, v) [] k' h.symm
    · rw [if_neg h]
      show mapGet [(k, v)] k' = mapGet [] k'
      exact mapGet_cons_of_ne (k, v) [] k' (fun hk => h hk.symm)
  | cons q rest ih =>
    simp only [mapSet]
    by_cases hq : q.1 = k
    · rw [if_pos hq]
      by_cases h : k' = k
      · rw [if_pos h]
        exact mapGet_cons_of_eq (k, v) rest k' h.symm
      · rw [if_neg h]
        rw [mapGet_cons_of_ne (k, v) rest k' (fun hk => h hk.symm),
          mapGet_cons_of_ne q rest k' (fun hk => h ((hq.symm.trans hk).symm))]
    · rw [if_neg hq]
      by_cases hq' : q.1 = k'
      · have h : ¬ k' = k := fun hk => hq (hq'.trans hk)
        rw [if_neg h, mapGet_cons_of_eq q (mapSet rest k v) k' hq',
          mapGet_cons_of_eq q rest k' hq']
      · rw [mapGet_cons_of_ne q (mapSet rest k v) k' hq', ih,
          mapGet_cons_of_ne q rest k' hq']

theorem mapGet_pushAdj (m : GraphMap) (k k' rid : String) :
    mapGet (pushAdj m k rid) k' =
      if k' = k then
        (mapGet m k').map
          (fun n => { n with adjacentRooms := n.adjacentRooms ++ [rid] })
      else mapGet m k' := by
  induction m with
  | nil =>
    by_cases h : k' = k <;> simp [pushAdj, mapGet, h]
  | cons q rest ih =>
    have hcons : pushAdj (q :: rest) k rid =
        (if q.1 = k then (q.1, { q.2 with adjacentRooms := q.2.adjacentRooms ++ [rid] })
          else q) :: pushAdj rest k rid := rfl
    rw [hcons]
    by_cases hq : q.1 = k
    · rw [if_pos hq]
      by_cases hq' : q.1 = k'
      · have h : k' = k := hq'.symm.trans hq
        rw [if_pos h,
          mapGet_cons_of_eq (q.1, { q.2 with adjacentRooms := q.2.adjacentRooms ++ [rid] })
            (pushAdj rest k rid) k' hq',
          mapGet_cons_of_eq q rest k' hq']
        rfl
      · rw [mapGet_cons_of_ne
            (q.1, { q.2 with adjacentRooms := q.2.adjacentRooms ++ [rid] })
            (pushAdj rest k rid) k' hq', ih,
          mapGet_cons_of_ne q rest k' hq']
    · rw [if_neg hq]
      by_cases hq' : q.1 = k'
      · have h : ¬ k' = k := fun hk => hq (hq'.trans hk)
        rw [if_neg h, mapGet_cons_of_eq q (pushAdj rest k rid) k' hq',
          mapGet_cons_of_eq q rest k' hq']
      · rw [mapGet_cons_of_ne q (pushAdj rest k rid) k' hq', ih,
          mapGet_cons_of_ne q rest k' hq']

theorem core_pushAdj (m : GraphMap) (k k' rid : String) :
    (mapGet (pushAdj m k rid) k').map GNode.core = (mapGet m k').map GNode.core := by
  rw [mapGet_pushAdj]
  by_cases h : k' = k
  · rw [if_pos h]
    cases mapGet m k' <;> rfl
  · rw [if_neg h]

theorem core_pairStep (m : GraphMap) (r1 r2 : Room) (k : String) :
    (mapGet (pairStep m r1 r2) k).map GNode.core = (mapGet m k).map GNode.core := by
  simp only [pairStep]
  split_ifs <;> simp only [core_pushAdj]

theorem core_buildEdges (l : List Room) (m : GraphMap) (k : String) :
    (mapGet (buildEdges l m) k).map GNode.core = (mapGet m k).map GNode.core := by
  induction l generalizing m with
  | nil => rfl
  | cons r rest ih =>
    simp only [buildEdges]
    rw [ih]
    suffices H : ∀ (rs : List Room) (m' : GraphMap),
        (mapGet (rs.foldl (fun acc r2 => pairStep acc r r2) m') k).map GNode.core =
          (mapGet m' k).map GNode.core by
      exact H rest m
    intro rs
    induction rs with
    | nil =>
      intro m'
      rfl
    | cons r2 rs2 ih2 =>
      intro m'
      rw [List.foldl_cons, ih2, core_pairStep]

theorem mapGet_insertAll (rooms : List Room) (m : GraphMap) (k : String) :
    mapGet (rooms.foldl (fun acc r => mapSet acc r.room_id r.toNode) m) k =
      ((rooms.reverse.find? (fun r => decide (r.room_id = k))).map Room.toNode).or
        (mapGet m k) := by
  induction rooms generalizing m with
  | nil => simp
  | cons r rest ih =>
    rw [List.foldl_cons, ih, List.reverse_cons, List.find?_append, mapGet_mapSet]
    cases hf : rest.reverse.find? (fun r => decide (r.room_id = k)) with
    | some x => simp
    | none =>
      by_cases h : r.room_id = k
      · simp [List.find?_cons, h]
      · have hk : ¬ k = r.room_id := fun hk => h hk.symm
        simp [List.find?_cons, decide_eq_false h, hk]

theorem buildRoomsGraph_last_wins (rooms : List Room) (k : String) :
    (mapGet (buildRoomsGraph rooms) k).map GNode.core =
      rooms.reverse.find? (fun r => decide (r.room_id = k)) := by
  unfold buildRoomsGraph
  rw [core_buildEdges, mapGet_insertAll]
  cases rooms.reverse.find? (fun r => decide (r.room_id = k)) with
  | none => rfl
  | some x => rfl

/-! ## Keys of the graph are never duplicated -/

theorem keys_mapSet (m : GraphMap) (k : String) (v : GNode) :
    (mapSet m k v).map Prod.fst =
      if k ∈ m.map Prod.fst then m.map Prod.fst else m.map Prod.fst ++ [k] := by
  induction m with
  | nil => simp [mapSet]
  | cons q rest ih =>
    simp only [mapSet, List.map_cons]
    by_cases hq : q.1 = k
    · rw [if_pos hq, if_pos (by simp [hq])]
      simp [hq]
    · rw [if_neg hq, List.map_cons, ih]
      by_cases hk : k ∈ rest.map Prod.fst
      · rw [if_pos hk, if_pos (by simp [hk])]
      · have hnotin : ¬ k ∈ q.1 :: rest.map Prod.fst := by
          simp only [List.mem_cons]
          rintro (h | h)
          · exact hq h.symm
          · exact hk h
        rw [if_neg hk, if_neg hnotin]
        rfl

theorem keys_mapSet_nodup (m : GraphMap) (k : String) (v : GNode)
    (h : (m.map Prod.fst).Nodup) : ((mapSet m k v).map Prod.fst).Nodup := by
  rw [keys_mapSet]
  by_cases hk : k ∈ m.map Prod.fst
  · rw [if_pos hk]
    exact h
  · rw [if_neg hk]
    simp [List.nodup_append, h, hk]

theorem buildRoomsGraph_keys_nodup (rooms : List Room) :
    ((buildRoomsGraph rooms).map Prod.fst).Nodup := by
  unfold buildRoomsGraph
  rw [keys_buildEdges]
  suffices H : ∀ (rs : List Room) (m : GraphMap), (m.map Prod.fst).Nodup →
      ((rs.foldl (fun acc r => mapSet acc r.room_id r.toNode) m).map Prod.fst).Nodup by
    exact H rooms [] (by simp)
  intro rs
  induction rs with
  | nil =>
    intro m hm
    exact hm
  | cons r rest ih =>
    intro m hm
    exact ih (mapSet m r.room_id r.toNode) (keys_mapSet_nodup m _ _ hm)

theorem mem_mapGet (m : GraphMap) (k : String) (n : GNode) :
    (m.map Prod.fst).Nodup → (k, n) ∈ m → mapGet m k = some n := by
  induction m with
  | nil =>
    intro _ h
    simp at h
  | cons q rest ih =>
    intro hnd h
    rw [List.map_cons, List.nodup_cons] at hnd
    rcases List.mem_cons.mp h with h' | h'
    · rw [← h']
      simp [mapGet, List.find?]
    · have hk : k ∈ rest.map Prod.fst := by
        simpa using List.mem_map_of_mem Prod.fst h'
      have hq : decide (q.1 = k) = false := by
        simp only [decide_eq_false_iff_not]
        intro hqk
        exact hnd.1 (hqk ▸ hk)
      simp only [mapGet, List.find?, hq]
      exact ih hnd.2 h'

/-- C9: room identity is scoped to the `(room_id, building)` pair on add,
but the allocation path identifies rooms by `room_id` alone: the graph node
stored under a key carries the record of the last store room with that
`room_id` (so with duplicated ids only the later room is ever a
candidate), any allocated room is that last record, `checkAvailability`
compares bookings by `room_id` only (changing every booking's room
building never changes the answer), and the duplicate check on add permits
two rooms sharing a `room_id` in different buildings. -/
theorem c9_room_identity_by_id :
    (∀ (rooms : List Room) (k : String) (n : GNode),
      mapGet (buildRoomsGraph rooms) k = some n →
      rooms.reverse.find? (fun x => decide (x.room_id = k)) = some n.core) ∧
    (∀ (rooms : List Room) (scheds : List Booking) (req : Request) (bid : String)
        (r : GNode) (rbid : String),
      allocateRoom (buildRoomsGraph rooms) scheds req bid = .success r rbid →
      rooms.reverse.find? (fun x => decide (x.room_id = r.room_id)) = some r.core) ∧
    (∀ (k d s e : String) (scheds : List Booking) (f : Booking → String),
      checkAvailability k d s e
        (scheds.map (fun b => { b with room := { b.room with building := f b } })) =
        checkAvailability k d s e scheds) ∧
    (∀ (rooms : List Room) (nr : Room),
      (∀ r ∈ rooms, ¬(r.room_id = nr.room_id ∧ r.building = nr.building)) →
      handleAddRoomSubmit rooms nr = rooms ++ [nr]) := by
  have hget : ∀ (rooms : List Room) (k : String) (n : GNode),
      mapGet (buildRoomsGraph rooms) k = some n →
      rooms.reverse.find? (fun x => decide (x.room_id = k)) = some n.core := by
    intro rooms k n h
    have := buildRoomsGraph_last_wins rooms k
    rw [h] at this
    exact this.symm
  refine ⟨hget, ?_, ?_, ?_⟩
  · intro rooms scheds req bid r rbid h
    obtain ⟨a, as, hS, hr⟩ := allocateRoom_success _ _ _ _ _ _ h
    have hin : r ∈ suitableRooms (buildRoomsGraph rooms) scheds req := by
      rw [hS, hr]
      exact selectBest_mem _ a as
    obtain ⟨k, hk, -⟩ := (mem_suitableRooms _ _ _ r).mp hin
    have hkey : r.room_id = k := buildRoomsGraph_key_wf rooms (k, r) hk
    have hsome : mapGet (buildRoomsGraph rooms) k = some r :=
      mem_mapGet _ k r (buildRoomsGraph_keys_nodup rooms) hk
    rw [hkey]
    exact hget rooms k r hsome
  · intro k d s e scheds f
    simp only [checkAvailability, List.any_map]
    congr 1
  · intro rooms nr h
    have hd : isDuplicateRoom rooms nr = false := by
      simp only [isDuplicateRoom, List.any_eq_false, decide_eq_true_eq]
      exact h
    simp [handleAddRoomSubmit, hd]

theorem c9_room_identity_by_id_witness :
    ([⟨"D", "Main", 30, 1, facAll⟩, ⟨"D", "Annex", 80, 1, facAll⟩] : List Room).reverse.find?
        (fun x => decide (x.room_id = (⟨"D", "Annex", 80, 1, facAll, []⟩ : GNode).room_id)) =
      some (⟨"D", "Annex", 80, 1, facAll, []⟩ : GNode).core ∧
    handleAddRoomSubmit [⟨"D", "Main", 30, 1, facAll⟩] ⟨"D", "Annex", 80, 1, facAll⟩ =
      [⟨"D", "Main", 30, 1, facAll⟩] ++ [⟨"D", "Annex", 80, 1, facAll⟩] :=
  ⟨c9_room_identity_by_id.2.1
      [⟨"D", "Main", 30, 1, facAll⟩, ⟨"D", "Annex", 80, 1, facAll⟩] [] reqCap48 "BK2"
      ⟨"D", "Annex", 80, 1, facAll, []⟩ "BK2" (by decide),
    c9_room_identity_by_id.2.2.2 [⟨"D", "Main", 30, 1, facAll⟩] ⟨"D", "Annex", 80, 1, facAll⟩
      (by decide)⟩

/-! ## The pair loops as folds over the tagged pair list -/

theorem buildEdges_eq_foldl (l : List Room) (m : GraphMap) :
    buildEdges l m = (pairList l).foldl (fun acc p => pairStep acc p.1 p.2) m := by
  induction l generalizing m with
  | nil => rfl
  | cons r rest ih =>
    simp only [buildEdges, pairList]
    rw [ih, List.foldl_append, List.foldl_map]

theorem pairList_eq_ipairList (l : List Room) : ∀ i : Nat,
    pairList l = (ipairList i l).map stripIdx := by
  induction l with
  | nil =>
    intro i
    rfl
  | cons r rest ih =>
    intro i
    simp only [pairList, ipairList, List.map_append, List.map_map]
    congr 1
    · have h1 : (stripIdx ∘ fun jr : Nat × Room => ((i, r), jr)) =
          (fun jr : Nat × Room => (r, jr.2)) := rfl
      rw [h1]
      have h2 : (fun jr : Nat × Room => (r, jr.2)) =
          ((fun r2 : Room => (r, r2)) ∘ Prod.snd) := rfl
      rw [h2, ← List.map_map, List.enumFrom_map_snd]
    · exact ih (i + 1)

theorem vizInner_eq_foldl (r1 : Room) (i : Nat) (l : List Room) : ∀ (j : Nat) (s : VizState),
    vizInner r1 i j l s =
      ((List.enumFrom j l).map (fun jr => ((i, r1), jr))).foldl
        (fun acc p => vizPairStep p.1.2 p.2.2 p.1.1 p.2.1 acc) s := by
  induction l with
  | nil =>
    intro j s
    rfl
  | cons r2 rest ih =>
    intro j s
    simp only [vizInner, List.enumFrom_cons, List.map_cons, List.foldl_cons]
    exact ih (j + 1) _

theorem vizOuter_eq_foldl (l : List Room) : ∀ (i : Nat) (s : VizState),
    vizOuter i l s =
      (ipairList i l).foldl (fun acc p => vizPairStep p.1.2 p.2.2 p.1.1 p.2.1 acc) s := by
  induction l with
  | nil =>
    intro i s
    rfl
  | cons r rest ih =>
    intro i s
    simp only [vizOuter, ipairList, List.foldl_append]
    rw [vizInner_eq_foldl, ih]

/-! ## Facts about the tagged pair list -/

theorem ipairList_mem (i : Nat) (l : List Room) (p : IPair) :
    p ∈ ipairList i l →
      i ≤ p.1.1 ∧ p.1.1 < p.2.1 ∧ p.2.1 < i + l.length ∧
        l[p.1.1 - i]? = some p.1.2 ∧ l[p.2.1 - i]? = some p.2.2 := by
  induction l generalizing i with
  | nil =>
    intro hp
    simp [ipairList] at hp
  | cons r rest ih =>
    intro hp
    simp only [ipairList, List.mem_append] at hp
    rcases hp with hp | hp
    · obtain ⟨jr, hjr, rfl⟩ := List.mem_map.mp hp
      obtain ⟨x, y⟩ := jr
      obtain ⟨hle, hlt, hx⟩ := List.mem_enumFrom hjr
      have hbound : x - (i + 1) < rest.length := by omega
      have hget : rest[x - (i + 1)]? = some y := by
        rw [List.getElem?_eq_getElem hbound, hx]
      refine ⟨le_refl i, ?_, ?_, ?_, ?_⟩
      · show i < x
        omega
      · show x < i + (r :: rest).length
        simp only [List.length_cons]
        omega
      · show (r :: rest)[i - i]? = some r
        simp [Nat.sub_self]
      · show (r :: rest)[x - i]? = some y
        have harith : x - i = (x - (i + 1)) + 1 := by omega
        rw [harith, List.getElem?_cons_succ]
        exact hget
    · obtain ⟨h1, h2, h3, h4, h5⟩ := ih (i + 1) hp
      have ha : p.1.1 - i = (p.1.1 - (i + 1)) + 1 := by omega
      have hb : p.2.1 - i = (p.2.1 - (i + 1)) + 1 := by omega
      refine ⟨by omega, h2, by simp only [List.length_cons]; omega, ?_, ?_⟩
      · rw [ha, List.getElem?_cons_succ]
        exact h4
      · rw [hb, List.getElem?_cons_succ]
        exact h5

theorem ipairList_idx_nodup (l : List Room) : ∀ i : Nat,
    ((ipairList i l).map (fun p => (p.1.1, p.2.1))).Nodup := by
  induction l with
  | nil =>
    intro i
    simp [ipairList]
  | cons r rest ih =>
    intro i
    simp only [ipairList, List.map_append]
    rw [List.nodup_append]
    refine ⟨?_, ih (i + 1), ?_⟩
    · rw [List.map_map]
      have h1 : ((fun p : IPair => (p.1.1, p.2.1)) ∘ fun jr : Nat × Room => ((i, r), jr)) =
          ((fun n : Nat => (i, n)) ∘ Prod.fst) := rfl
      rw [h1, ← List.map_map, List.enumFrom_map_fst]
      refine List.Nodup.map ?_ (List.nodup_range' (i + 1) rest.length)
      intro a b hab
      exact (Prod.mk.injEq i a i b).mp hab |>.2
    · intro a ha hb
      rw [List.map_map] at ha
      obtain ⟨jr, -, rfl⟩ := List.mem_map.mp ha
      obtain ⟨q, hq, hqa⟩ := List.mem_map.mp hb
      obtain ⟨hge, -, -, -, -⟩ := ipairList_mem (i + 1) rest q hq
      have : i + 1 ≤ i := by
        have h1 : (((fun p : IPair => (p.1.1, p.2.1)) ∘ fun jr : Nat × Room =>
            ((i, r), jr)) jr).1 = i := rfl
        rw [← hqa] at h1
        simp only at h1
        omega
      omega

theorem ipairList_complete (l : List Room) : ∀ (off i j : Nat) (ri rj : Room),
    i < j → l[i]? = some ri → l[j]? = some rj →
    ((off + i, ri), (off + j, rj)) ∈ ipairList off l := by
  induction l with
  | nil =>
    intro off i j ri rj hij h1 h2
    simp at h1
  | cons r rest ih =>
    intro off i j ri rj hij h1 h2
    simp only [ipairList, List.mem_append]
    cases i with
    | zero =>
      left
      rw [List.getElem?_cons_zero] at h1
      obtain rfl : r = ri := Option.some.inj h1
      obtain ⟨m, rfl⟩ : ∃ m, j = m + 1 := ⟨j - 1, by omega⟩
      rw [List.getElem?_cons_succ] at h2
      have hget : (List.enumFrom (off + 1) rest)[m]? = some (off + 1 + m, rj) := by
        rw [List.getElem?_enumFrom, h2]
        rfl
      have hmem := List.getElem?_mem hget
      have harith : off + 1 + m = off + (m + 1) := by omega
      rw [harith] at hmem
      simp only [Nat.add_zero]
      exact List.mem_map.mpr ⟨(off + (m + 1), rj), hmem, rfl⟩
    | succ i' =>
      right
      rw [List.getElem?_cons_succ] at h1
      obtain ⟨m, rfl⟩ : ∃ m, j = m + 1 := ⟨j - 1, by omega⟩
      rw [List.getElem?_cons_succ] at h2
      have hmem := ih (off + 1) i' m ri rj (by omega) h1 h2
      have ha : off + 1 + i' = off + (i' + 1) := by omega
      have hb : off + 1 + m = off + (m + 1) := by omega
      rw [ha, hb] at hmem
      exact hmem

theorem ids_index_inj (rooms : List Room) (hnd : (rooms.map Room.room_id).Nodup)
    {i j : Nat} {x y : Room} (hi : rooms[i]? = some x) (hj : rooms[j]? = some y)
    (hxy : x.room_id = y.room_id) : i = j := by
  refine @List.getElem?_inj _ i j (rooms.map Room.room_id) ?_ hnd ?_
  · rw [List.length_map]
    exact (List.getElem?_eq_some_iff.mp hi).1
  · rw [List.getElem?_map, List.getElem?_map, hi, hj]
    simp [hxy]

theorem ipairList_ids_ne (rooms : List Room) (hnd : (rooms.map Room.room_id).Nodup)
    (p : IPair) (hp : p ∈ ipairList 0 rooms) : p.1.2.room_id ≠ p.2.2.room_id := by
  obtain ⟨-, hij, -, h1, h2⟩ := ipairList_mem 0 rooms p hp
  simp only [Nat.sub_zero] at h1 h2
  intro h
  exact absurd (ids_index_inj rooms hnd h1 h2 h) (by omega)

/-! ## The per-pair effect of `pairStep` on the graph -/

theorem adjOf_of_mapGet {m : GraphMap} {a : String} {n : GNode}
    (h : mapGet m a = some n) : adjOf m a = n.adjacentRooms := by
  unfold adjOf
  rw [h]

theorem mapGet_pushPair (m : GraphMap) (k1 k2 : String) (hne : k1 ≠ k2) (a : String) :
    mapGet (pushAdj (pushAdj m k1 k2) k2 k1) a =
      (mapGet m a).map (fun n =>
        if a = k1 then { n with adjacentRooms := n.adjacentRooms ++ [k2] }
        else if a = k2 then { n with adjacentRooms := n.adjacentRooms ++ [k1] }
        else n) := by
  rw [mapGet_pushAdj, mapGet_pushAdj]
  by_cases ha1 : a = k1
  · rw [if_neg (fun h => hne (ha1.symm.trans h)), if_pos ha1]
    cases mapGet m a <;> simp [ha1]
  · rw [if_neg ha1]
    by_cases ha2 : a = k2
    · rw [if_pos ha2]
      cases mapGet m a <;> simp [ha1, ha2, Ne.symm hne]
    · rw [if_neg ha2]
      cases mapGet m a <;> simp [ha1, ha2]

theorem pairStep_mapGet (m : GraphMap) (r1 r2 : Room) (n1 n2 : GNode)
    (h1 : mapGet m r1.room_id = some n1) (h2 : mapGet m r2.room_id = some n2)
    (hne : r1.room_id ≠ r2.room_id)
    (f1 : r2.room_id ∉ adjOf m r1.room_id) (f2 : r1.room_id ∉ adjOf m r2.room_id)
    (a : String) :
    mapGet (pairStep m r1 r2) a =
      (mapGet m a).map (fun n =>
        { n with adjacentRooms := n.adjacentRooms ++ (pairContrib a r1 r2).toList }) := by
  have hadj1 : adjOf (pushAdj (pushAdj m r1.room_id r2.room_id) r2.room_id r1.room_id)
      r1.room_id = n1.adjacentRooms ++ [r2.room_id] := by
    unfold adjOf
    rw [mapGet_pushPair m _ _ hne, h1]
    simp
  have hadj2 : adjOf (pushAdj (pushAdj m r1.room_id r2.room_id) r2.room_id r1.room_id)
      r2.room_id = n2.adjacentRooms ++ [r1.room_id] := by
    unfold adjOf
    rw [mapGet_pushPair m _ _ hne, h2]
    simp [Ne.symm hne]
  have tail : ∀ (hcond : adjCondB r1 r2 = true),
      mapGet (pushAdj (pushAdj m r1.room_id r2.room_id) r2.room_id r1.room_id) a =
        (mapGet m a).map (fun n =>
          { n with adjacentRooms := n.adjacentRooms ++ (pairContrib a r1 r2).toList }) := by
    intro hcond
    rw [mapGet_pushPair m _ _ hne]
    cases hma : mapGet m a with
    | none => rfl
    | some n =>
      by_cases ha1 : a = r1.room_id
      · simp [pairContrib, hcond, ha1]
      · by_cases ha2 : a = r2.room_id
        · simp [pairContrib, hcond, ha1, ha2, hne, Ne.symm hne]
        · simp [pairContrib, hcond, ha1, ha2, Ne.symm ha1, Ne.symm ha2]
  by_cases hb : r1.building = r2.building
  · have hh1 : hasAdj (pushAdj (pushAdj m r1.room_id r2.room_id) r2.room_id r1.room_id)
        r1.room_id r2.room_id = true := by
      simp [hasAdj, hadj1]
    have hh2 : hasAdj (pushAdj (pushAdj m r1.room_id r2.room_id) r2.room_id r1.room_id)
        r2.room_id r1.room_id = true := by
      simp [hasAdj, hadj2]
    have hres : pairStep m r1 r2 =
        pushAdj (pushAdj m r1.room_id r2.room_id) r2.room_id r1.room_id := by
      by_cases hc : similarCapacity r1.capacity r2.capacity = true
      · simp [pairStep, if_pos hb, hc, hh1, hh2]
      · simp [pairStep, if_pos hb, hc]
    rw [hres]
    exact tail (by simp [adjCondB, hb])
  · by_cases hc : similarCapacity r1.capacity r2.capacity = true
    · have hadjp : adjOf (pushAdj m r1.room_id r2.room_id) r2.room_id = adjOf m r2.room_id := by
        unfold adjOf
        rw [mapGet_pushAdj, if_neg (Ne.symm hne)]
      have hh1 : hasAdj m r1.room_id r2.room_id = false := by
        simp [hasAdj, f1]
      have hh2 : hasAdj (pushAdj m r1.room_id r2.room_id) r2.room_id r1.room_id = false := by
        simp [hasAdj, hadjp, f2]
      have hres : pairStep m r1 r2 =
          pushAdj (pushAdj m r1.room_id r2.room_id) r2.room_id r1.room_id := by
        simp [pairStep, hb, hc, hh1, hh2]
      rw [hres]
      exact tail (by simp [adjCondB, hc])
    · have hres : pairStep m r1 r2 = m := by
        simp [pairStep, hb, hc]
      rw [hres]
      have hcond : adjCondB r1 r2 = false := by
        rw [adjCondB, Bool.or_eq_false_iff]
        exact ⟨decide_eq_false hb, Bool.eq_false_iff.mpr hc⟩
      cases hma : mapGet m a with
      | none => rfl
      | some n =>
        cases n
        simp [pairContrib, hcond]

/-! ## The graph adjacency lists match their pair-list prediction -/

theorem mainAdjSpec_append (P Q : List IPair) (a : String) :
    mainAdjSpec (P ++ Q) a = mainAdjSpec P a ++ mainAdjSpec Q a :=
  List.filterMap_append P Q (mainContrib a)

theorem mainAdjSpec_singleton (p : IPair) (a : String) :
    mainAdjSpec [p] a = (mainContrib a p).toList := by
  cases h : mainContrib a p <;> simp [mainAdjSpec, List.filterMap_cons, h]

theorem spec_mem_elim (P : List IPair) (a rid : String)
    (h : rid ∈ mainAdjSpec P a) :
    ∃ q ∈ P, adjCondB q.1.2 q.2.2 = true ∧
      ((q.1.2.room_id = a ∧ q.2.2.room_id = rid) ∨
        (q.2.2.room_id = a ∧ q.1.2.room_id = rid)) := by
  obtain ⟨q, hq, hcontrib⟩ := List.mem_filterMap.mp h
  refine ⟨q, hq, ?_⟩
  unfold mainContrib pairContrib at hcontrib
  split_ifs at hcontrib with hcond hA hB
  · exact ⟨hcond, Or.inl ⟨hA, Option.some.inj hcontrib⟩⟩
  · exact ⟨hcond, Or.inr ⟨hB, Option.some.inj hcontrib⟩⟩

theorem fresh_of_prefix (rooms : List Room) (hnd : (rooms.map Room.room_id).Nodup)
    (P Q : List IPair) (p : IPair) (hPQ : ipairList 0 rooms = P ++ p :: Q) :
    p.2.2.room_id ∉ mainAdjSpec P p.1.2.room_id ∧
      p.1.2.room_id ∉ mainAdjSpec P p.2.2.room_id := by
  have hsub : ∀ q ∈ P, q ∈ ipairList 0 rooms := by
    intro q hq
    rw [hPQ]
    exact List.mem_append.mpr (Or.inl hq)
  have hpmem : p ∈ ipairList 0 rooms := by
    rw [hPQ]
    exact List.mem_append.mpr (Or.inr (List.mem_cons_self p Q))
  obtain ⟨-, hpij, -, hp1, hp2⟩ := ipairList_mem 0 rooms p hpmem
  simp only [Nat.sub_zero] at hp1 hp2
  have hnodup := ipairList_idx_nodup rooms 0
  rw [hPQ, List.map_append, List.nodup_append] at hnodup
  obtain ⟨-, -, hdisj⟩ := hnodup
  have hqfacts : ∀ q ∈ P, q.1.1 < q.2.1 ∧
      rooms[q.1.1]? = some q.1.2 ∧ rooms[q.2.1]? = some q.2.2 := by
    intro q hq
    obtain ⟨-, h1, -, h2, h3⟩ := ipairList_mem 0 rooms q (hsub q hq)
    simp only [Nat.sub_zero] at h2 h3
    exact ⟨h1, h2, h3⟩
  have hnotsame : ∀ q ∈ P, ¬(q.1.1 = p.1.1 ∧ q.2.1 = p.2.1) := by
    intro q hq ⟨he1, he2⟩
    have hmemP : (q.1.1, q.2.1) ∈ P.map (fun p => (p.1.1, p.2.1)) :=
      List.mem_map_of_mem _ hq
    have hnot := hdisj hmemP
    apply hnot
    rw [he1, he2]
    exact List.mem_map_of_mem _ (List.mem_cons_self p Q)
  constructor
  · intro hmem
    obtain ⟨q, hq, -, hcase⟩ := spec_mem_elim P p.1.2.room_id p.2.2.room_id hmem
    obtain ⟨hij, h1, h2⟩ := hqfacts q hq
    rcases hcase with ⟨ha, hb⟩ | ⟨ha, hb⟩
    · exact hnotsame q hq ⟨ids_index_inj rooms hnd h1 hp1 ha,
        ids_index_inj rooms hnd h2 hp2 hb⟩
    · have e1 : q.2.1 = p.1.1 := ids_index_inj rooms hnd h2 hp1 ha
      have e2 : q.1.1 = p.2.1 := ids_index_inj rooms hnd h1 hp2 hb
      omega
  · intro hmem
    obtain ⟨q, hq, -, hcase⟩ := spec_mem_elim P p.2.2.room_id p.1.2.room_id hmem
    obtain ⟨hij, h1, h2⟩ := hqfacts q hq
    rcases hcase with ⟨ha, hb⟩ | ⟨ha, hb⟩
    · have e1 : q.1.1 = p.2.1 := ids_index_inj rooms hnd h1 hp2 ha
      have e2 : q.2.1 = p.1.1 := ids_index_inj rooms hnd h2 hp1 hb
      omega
    · exact hnotsame q hq ⟨ids_index_inj rooms hnd h1 hp1 hb,
        ids_index_inj rooms hnd h2 hp2 ha⟩

theorem mainFold_go (rooms : List Room) (hnd : (rooms.map Room.room_id).Nodup) :
    ∀ (Q P : List IPair), ipairList 0 rooms = P ++ Q →
    ∀ m : GraphMap,
      (∀ r ∈ rooms, mapGet m r.room_id = some (nodeWith r (mainAdjSpec P r.room_id))) →
      ∀ r ∈ rooms,
        mapGet (Q.foldl (fun acc p => pairStep acc p.1.2 p.2.2) m) r.room_id =
          some (nodeWith r (mainAdjSpec (P ++ Q) r.room_id)) := by
  intro Q
  induction Q with
  | nil =>
    intro P hPQ m hm r hr
    simpa using hm r hr
  | cons p Q ih =>
    intro P hPQ m hm r hr
    rw [List.foldl_cons]
    have hsplit : ipairList 0 rooms = (P ++ [p]) ++ Q := by
      rw [hPQ, List.append_assoc]
      rfl
    have hpmem : p ∈ ipairList 0 rooms := by
      rw [hPQ]
      exact List.mem_append.mpr (Or.inr (List.mem_cons_self p Q))
    obtain ⟨-, hpij, -, hg1, hg2⟩ := ipairList_mem 0 rooms p hpmem
    simp only [Nat.sub_zero] at hg1 hg2
    have hr1 : p.1.2 ∈ rooms := List.getElem?_mem hg1
    have hr2 : p.2.2 ∈ rooms := List.getElem?_mem hg2
    have hneid : p.1.2.room_id ≠ p.2.2.room_id := ipairList_ids_ne rooms hnd p hpmem
    obtain ⟨hfr1, hfr2⟩ := fresh_of_prefix rooms hnd P Q p hPQ
    have hm1 := hm p.1.2 hr1
    have hm2 := hm p.2.2 hr2
    have hadj1 : adjOf m p.1.2.room_id = mainAdjSpec P p.1.2.room_id := adjOf_of_mapGet hm1
    have hadj2 : adjOf m p.2.2.room_id = mainAdjSpec P p.2.2.room_id := adjOf_of_mapGet hm2
    have hstep := pairStep_mapGet m p.1.2 p.2.2 _ _ hm1 hm2 hneid
      (by rw [hadj1]; exact hfr1) (by rw [hadj2]; exact hfr2)
    have happly := ih (P ++ [p]) hsplit (pairStep m p.1.2 p.2.2) ?_ r hr
    · rw [List.append_assoc] at happly
      simpa using happly
    · intro r' hr'
      rw [hstep r'.room_id, hm r' hr']
      have : mainAdjSpec (P ++ [p]) r'.room_id =
          mainAdjSpec P r'.room_id ++ (mainContrib r'.room_id p).toList := by
        rw [mainAdjSpec_append, mainAdjSpec_singleton]
      rw [this]
      rfl

theorem buildRoomsGraph_spec (rooms : List Room) (hnd : (rooms.map Room.room_id).Nodup) :
    ∀ r ∈ rooms, mapGet (buildRoomsGraph rooms) r.room_id =
      some (nodeWith r (mainAdjSpec (ipairList 0 rooms) r.room_id)) := by
  intro r hr
  unfold buildRoomsGraph
  rw [buildEdges_eq_foldl, pairList_eq_ipairList rooms 0, List.foldl_map]
  have hinit : ∀ r' ∈ rooms,
      mapGet (rooms.foldl (fun m r => mapSet m r.room_id r.toNode) []) r'.room_id =
        some (nodeWith r' (mainAdjSpec [] r'.room_id)) := by
    intro r' hr'
    rw [phase1_eq rooms hnd]
    have hcomp : (Prod.fst ∘ fun r : Room => (r.room_id, r.toNode)) = Room.room_id := rfl
    have hkeys : ((rooms.map (fun r => (r.room_id, r.toNode))).map Prod.fst).Nodup := by
      rw [List.map_map, hcomp]
      exact hnd
    have hmem : (r'.room_id, r'.toNode) ∈ rooms.map (fun r => (r.room_id, r.toNode)) :=
      List.mem_map_of_mem _ hr'
    rw [mem_mapGet _ _ _ hkeys hmem]
    rfl
  exact mainFold_go rooms hnd (ipairList 0 rooms) [] rfl _ hinit r hr

/-! ## The per-pair effect of the visualizer loop -/

theorem getElem?_modifyIdx (f : VNode → VNode) (ns : List VNode) : ∀ (i k : Nat),
    (modifyIdx f i ns)[k]? = if k = i then (ns[k]?).map f else ns[k]? := by
  induction ns with
  | nil =>
    intro i k
    cases i <;> simp [modifyIdx]
  | cons n ns ih =>
    intro i k
    cases i with
    | zero =>
      cases k with
      | zero => simp [modifyIdx]
      | succ k' => simp [modifyIdx]
    | succ i' =>
      cases k with
      | zero => simp [modifyIdx]
      | succ k' =>
        simp only [modifyIdx, List.getElem?_cons_succ]
        rw [ih i' k']
        by_cases h : k' = i'
        · rw [if_pos h, if_pos (by omega)]
        · rw [if_neg h, if_neg (by omega)]

theorem vizPairStep_nodes (r1 r2 : Room) (i j : Nat) (s : VizState)
    (hij : i ≠ j) (ni nj : VNode)
    (hi : s.nodes[i]? = some ni) (hj : s.nodes[j]? = some nj)
    (f1 : r2.room_id ∉ ni.adjacentRooms) (f2 : r1.room_id ∉ nj.adjacentRooms)
    (k : Nat) :
    (vizPairStep r1 r2 i j s).nodes[k]? =
      (s.nodes[k]?).map (fun n =>
        { n with adjacentRooms :=
          n.adjacentRooms ++ (vizContrib k ((i, r1), (j, r2))).toList }) := by
  unfold vizPairStep
  by_cases hb : r1.building = r2.building
  · rw [if_pos hb]
    have hcond : vizCondB r1 r2 = true := by
      simp [vizCondB, hb]
    simp only [getElem?_modifyIdx]
    by_cases hk1 : k = i
    · rw [if_neg (by omega), if_pos hk1]
      cases hma : s.nodes[k]? <;>
        simp [vizContrib, vizPush, hcond, hk1, Ne.symm hij]
    · by_cases hk2 : k = j
      · rw [if_pos hk2]
        rw [if_neg (by omega)]
        cases hma : s.nodes[k]? <;>
          simp [vizContrib, vizPush, hcond, hk2, hij, Ne.symm hk1]
      · rw [if_neg hk2, if_neg hk1]
        cases hma : s.nodes[k]? with
        | none => rfl
        | some n =>
          cases n
          simp [vizContrib, hcond, Ne.symm hk1, Ne.symm hk2]
  · rw [if_neg hb]
    by_cases hc : similarCapacity r1.capacity r2.capacity = true
    · rw [if_pos hc]
      have hcond : vizCondB r1 r2 = true := by
        simp [vizCondB, hb, hc]
      simp only [hi, if_neg f1]
      have hj' : (modifyIdx (vizPush r2.room_id) i s.nodes)[j]? = some nj := by
        rw [getElem?_modifyIdx, if_neg (Ne.symm hij), hj]
      simp only [hj', if_neg f2]
      simp only [getElem?_modifyIdx]
      by_cases hk1 : k = i
      · rw [if_neg (by omega), if_pos hk1]
        cases hma : s.nodes[k]? <;>
          simp [vizContrib, vizPush, hcond, hk1, Ne.symm hij]
      · by_cases hk2 : k = j
        · rw [if_pos hk2, if_neg (by omega)]
          cases hma : s.nodes[k]? <;>
            simp [vizContrib, vizPush, hcond, hk2, hij, Ne.symm hk1]
        · rw [if_neg hk2, if_neg hk1]
          cases hma : s.nodes[k]? with
          | none => rfl
          | some n =>
            cases n
            simp [vizContrib, hcond, Ne.symm hk1, Ne.symm hk2]
    · rw [if_neg hc]
      have hcond : vizCondB r1 r2 = false := by
        rw [vizCondB, if_neg hb]
        exact Bool.eq_false_iff.mpr hc
      cases hma : s.nodes[k]? with
      | none => rfl
      | some n =>
        cases n
        simp [vizContrib, hcond]

/-! ## The visualizer adjacency lists match their pair-list prediction -/

theorem vizAdjSpec_append (P Q : List IPair) (k : Nat) :
    vizAdjSpec (P ++ Q) k = vizAdjSpec P k ++ vizAdjSpec Q k :=
  List.filterMap_append P Q (vizContrib k)

theorem vizAdjSpec_singleton (p : IPair) (k : Nat) :
    vizAdjSpec [p] k = (vizContrib k p).toList := by
  cases h : vizContrib k p <;> simp [vizAdjSpec, List.filterMap_cons, h]

theorem vizSpec_mem_elim (P : List IPair) (k : Nat) (rid : String)
    (h : rid ∈ vizAdjSpec P k) :
    ∃ q ∈ P, vizCondB q.1.2 q.2.2 = true ∧
      ((q.1.1 = k ∧ q.2.2.room_id = rid) ∨ (q.2.1 = k ∧ q.1.2.room_id = rid)) := by
  obtain ⟨q, hq, hcontrib⟩ := List.mem_filterMap.mp h
  refine ⟨q, hq, ?_⟩
  unfold vizContrib at hcontrib
  split_ifs at hcontrib with hcond hA hB
  · exact ⟨hcond, Or.inl ⟨hA, Option.some.inj hcontrib⟩⟩
  · exact ⟨hcond, Or.inr ⟨hB, Option.some.inj hcontrib⟩⟩

theorem viz_fresh_of_prefix (rooms : List Room) (hnd : (rooms.map Room.room_id).Nodup)
    (P Q : List IPair) (p : IPair) (hPQ : ipairList 0 rooms = P ++ p :: Q) :
    p.2.2.room_id ∉ vizAdjSpec P p.1.1 ∧ p.1.2.room_id ∉ vizAdjSpec P p.2.1 := by
  have hsub : ∀ q ∈ P, q ∈ ipairList 0 rooms := by
    intro q hq
    rw [hPQ]
    exact List.mem_append.mpr (Or.inl hq)
  have hpmem : p ∈ ipairList 0 rooms := by
    rw [hPQ]
    exact List.mem_append.mpr (Or.inr (List.mem_cons_self p Q))
  obtain ⟨-, hpij, -, hp1, hp2⟩ := ipairList_mem 0 rooms p hpmem
  simp only [Nat.sub_zero] at hp1 hp2
  have hnodup := ipairList_idx_nodup rooms 0
  rw [hPQ, List.map_append, List.nodup_append] at hnodup
  obtain ⟨-, -, hdisj⟩ := hnodup
  have hqfacts : ∀ q ∈ P, q.1.1 < q.2.1 ∧
      rooms[q.1.1]? = some q.1.2 ∧ rooms[q.2.1]? = some q.2.2 := by
    intro q hq
    obtain ⟨-, h1, -, h2, h3⟩ := ipairList_mem 0 rooms q (hsub q hq)
    simp only [Nat.sub_zero] at h2 h3
    exact ⟨h1, h2, h3⟩
  have hnotsame : ∀ q ∈ P, ¬(q.1.1 = p.1.1 ∧ q.2.1 = p.2.1) := by
    intro q hq hcontra
    have hmemP : (q.1.1, q.2.1) ∈ P.map (fun p => (p.1.1, p.2.1)) :=
      List.mem_map_of_mem _ hq
    apply hdisj hmemP
    rw [hcontra.1, hcontra.2]
    exact List.mem_map_of_mem _ (List.mem_cons_self p Q)
  constructor
  · intro hmem
    obtain ⟨q, hq, -, hcase⟩ := vizSpec_mem_elim P p.1.1 p.2.2.room_id hmem
    obtain ⟨hij, h1, h2⟩ := hqfacts q hq
    rcases hcase with ⟨ha, hb⟩ | ⟨ha, hb⟩
    · exact hnotsame q hq ⟨ha, ids_index_inj rooms hnd h2 hp2 hb⟩
    · have e2 : q.1.1 = p.2.1 := ids_index_inj rooms hnd h1 hp2 hb
      omega
  · intro hmem
    obtain ⟨q, hq, -, hcase⟩ := vizSpec_mem_elim P p.2.1 p.1.2.room_id hmem
    obtain ⟨hij, h1, h2⟩ := hqfacts q hq
    rcases hcase with ⟨ha, hb⟩ | ⟨ha, hb⟩
    · have e2 : q.2.1 = p.1.1 := ids_index_inj rooms hnd h2 hp1 hb
      omega
    · exact hnotsame q hq ⟨ids_index_inj rooms hnd h1 hp1 hb, ha⟩

theorem vizFold_go (rooms : List Room) (hnd : (rooms.map Room.room_id).Nodup) :
    ∀ (Q P : List IPair), ipairList 0 rooms = P ++ Q →
    ∀ s : VizState,
      (∀ (k : Nat) (r : Room), rooms[k]? = some r →
        s.nodes[k]? = some (vnodeWith r (vizAdjSpec P k))) →
      ∀ (k : Nat) (r : Room), rooms[k]? = some r →
        (Q.foldl (fun acc p => vizPairStep p.1.2 p.2.2 p.1.1 p.2.1 acc) s).nodes[k]? =
          some (vnodeWith r (vizAdjSpec (P ++ Q) k)) := by
  intro Q
  induction Q with
  | nil =>
    intro P hPQ s hs k r hk
    simpa using hs k r hk
  | cons p Q ih =>
    intro P hPQ s hs k r hk
    rw [List.foldl_cons]
    have hsplit : ipairList 0 rooms = (P ++ [p]) ++ Q := by
      rw [hPQ, List.append_assoc]
      rfl
    have hpmem : p ∈ ipairList 0 rooms := by
      rw [hPQ]
      exact List.mem_append.mpr (Or.inr (List.mem_cons_self p Q))
    obtain ⟨-, hpij, -, hg1, hg2⟩ := ipairList_mem 0 rooms p hpmem
    simp only [Nat.sub_zero] at hg1 hg2
    obtain ⟨hfr1, hfr2⟩ := viz_fresh_of_prefix rooms hnd P Q p hPQ
    have hs1 := hs p.1.1 p.1.2 hg1
    have hs2 := hs p.2.1 p.2.2 hg2
    have hstep := vizPairStep_nodes p.1.2 p.2.2 p.1.1 p.2.1 s (by omega) _ _ hs1 hs2
      hfr1 hfr2
    have happly := ih (P ++ [p]) hsplit (vizPairStep p.1.2 p.2.2 p.1.1 p.2.1 s) ?_ k r hk
    · rw [List.append_assoc] at happly
      simpa using happly
    · intro k' r' hk'
      rw [hstep k', hs k' r' hk']
      have : vizAdjSpec (P ++ [p]) k' =
          vizAdjSpec P k' ++ (vizContrib k' p).toList := by
        rw [vizAdjSpec_append, vizAdjSpec_singleton]
      rw [this]
      rfl

theorem buildGraph_spec (rooms : List Room) (hnd : (rooms.map Room.room_id).Nodup)
    (k : Nat) (r : Room) (hk : rooms[k]? = some r) :
    (buildGraph rooms).nodes[k]? =
      some (vnodeWith r (vizAdjSpec (ipairList 0 rooms) k)) := by
  unfold buildGraph
  rw [vizOuter_eq_foldl]
  have hinit : ∀ (k' : Nat) (r' : Room), rooms[k']? = some r' →
      (VizState.mk (rooms.map (fun r =>
        (⟨r.room_id, r.building, r.capacity, r.facilities, []⟩ : VNode))) []).nodes[k']? =
        some (vnodeWith r' (vizAdjSpec [] k')) := by
    intro k' r' hk'
    simp only [List.getElem?_map, hk']
    rfl
  exact vizFold_go rooms hnd (ipairList 0 rooms) [] rfl _ hinit k r hk

/-! ## The two builders compute the same adjacency -/

theorem vizCondB_eq_adjCondB (r1 r2 : Room) : vizCondB r1 r2 = adjCondB r1 r2 := by
  unfold vizCondB adjCondB
  by_cases h : r1.building = r2.building <;> simp [h]

theorem adjCondB_symm (r1 r2 : Room) : adjCondB r1 r2 = adjCondB r2 r1 := by
  unfold adjCondB
  congr 1
  · exact decide_eq_decide.mpr eq_comm
  · unfold similarCapacity
    exact decide_eq_decide.mpr
      (by rw [Nat.max_comm r1.capacity, Nat.min_comm r1.capacity])

theorem vizSpec_eq_mainSpec (rooms : List Room) (hnd : (rooms.map Room.room_id).Nodup)
    (k : Nat) (r : Room) (hk : rooms[k]? = some r) :
    vizAdjSpec (ipairList 0 rooms) k = mainAdjSpec (ipairList 0 rooms) r.room_id := by
  apply List.filterMap_congr
  intro q hq
  obtain ⟨-, hij, -, h1, h2⟩ := ipairList_mem 0 rooms q hq
  simp only [Nat.sub_zero] at h1 h2
  unfold vizContrib mainContrib pairContrib
  rw [vizCondB_eq_adjCondB]
  by_cases hcond : adjCondB q.1.2 q.2.2 = true
  · rw [if_pos hcond, if_pos hcond]
    have hiff1 : q.1.1 = k ↔ q.1.2.room_id = r.room_id := by
      constructor
      · intro h
        rw [h, hk] at h1
        rw [Option.some.inj h1]
      · exact fun h => ids_index_inj rooms hnd h1 hk h
    have hiff2 : q.2.1 = k ↔ q.2.2.room_id = r.room_id := by
      constructor
      · intro h
        rw [h, hk] at h2
        rw [Option.some.inj h2]
      · exact fun h => ids_index_inj rooms hnd h2 hk h
    by_cases hA : q.1.1 = k
    · rw [if_pos hA, if_pos (hiff1.mp hA)]
    · rw [if_neg hA, if_neg (fun h => hA (hiff1.mpr h))]
      by_cases hB : q.2.1 = k
      · rw [if_pos hB, if_pos (hiff2.mp hB)]
      · rw [if_neg hB, if_neg (fun h => hB (hiff2.mpr h))]
  · rw [if_neg hcond, if_neg hcond]

/-- C8: the two adjacency builders agree: for every store with pairwise
distinct room ids, the `adjacentRooms` list that
`RoomGraphVisualizer.buildGraph` computes for the node at position `k`
equals the `adjacentRooms` list that `buildRoomsGraph` stores under that
room's id. -/
theorem c8_builders_agree (rooms : List Room) (hnd : (rooms.map Room.room_id).Nodup)
    (k : Nat) (r : Room) (hk : rooms[k]? = some r) :
    ((buildGraph rooms).nodes[k]?).map VNode.adjacentRooms =
      (mapGet (buildRoomsGraph rooms) r.room_id).map GNode.adjacentRooms := by
  rw [buildGraph_spec rooms hnd k r hk,
    buildRoomsGraph_spec rooms hnd r (List.getElem?_mem hk),
    vizSpec_eq_mainSpec rooms hnd k r hk]
  rfl

theorem c8_builders_agree_witness :
    (((buildGraph [roomA50, roomB60, roomC100]).nodes[0]?).map VNode.adjacentRooms =
      (mapGet (buildRoomsGraph [roomA50, roomB60, roomC100]) roomA50.room_id).map
        GNode.adjacentRooms) ∧
    ((buildGraph [roomA50, roomB60, roomC100]).nodes[0]?).map VNode.adjacentRooms =
      some ["R60"] :=
  ⟨c8_builders_agree [roomA50, roomB60, roomC100] (by decide) 0 roomA50 rfl, by decide⟩

/-! ## The adjacency relation of the rooms graph -/

theorem mainContrib_elim (a rid : String) (q : IPair) (h : mainContrib a q = some rid) :
    adjCondB q.1.2 q.2.2 = true ∧
      ((q.1.2.room_id = a ∧ q.2.2.room_id = rid) ∨
        (q.2.2.room_id = a ∧ q.1.2.room_id = rid)) := by
  unfold mainContrib pairContrib at h
  split_ifs at h with hcond hA hB
  · exact ⟨hcond, Or.inl ⟨hA, Option.some.inj h⟩⟩
  · exact ⟨hcond, Or.inr ⟨hB, Option.some.inj h⟩⟩

theorem ipair_eq_of_idx (rooms : List Room) (q q' : IPair)
    (hq : q ∈ ipairList 0 rooms) (hq' : q' ∈ ipairList 0 rooms)
    (h1 : q.1.1 = q'.1.1) (h2 : q.2.1 = q'.2.1) : q = q' := by
  obtain ⟨-, -, -, hg1, hg2⟩ := ipairList_mem 0 rooms q hq
  obtain ⟨-, -, -, hg1', hg2'⟩ := ipairList_mem 0 rooms q' hq'
  simp only [Nat.sub_zero] at hg1 hg2 hg1' hg2'
  obtain ⟨⟨i1, x1⟩, j1, y1⟩ := q
  obtain ⟨⟨i2, x2⟩, j2, y2⟩ := q'
  simp only at h1 h2 hg1 hg2 hg1' hg2' ⊢
  subst h1
  subst h2
  rw [hg1] at hg1'
  rw [hg2] at hg2'
  rw [Option.some.inj hg1', Option.some.inj hg2']

theorem nodup_filterMap_of_inj_on {α β : Type _} (f : α → Option β) (l : List α)
    (hl : l.Nodup)
    (h : ∀ a ∈ l, ∀ a' ∈ l, ∀ b, f a = some b → f a' = some b → a = a') :
    (l.filterMap f).Nodup := by
  induction l with
  | nil => simp
  | cons x xs ih =>
    rw [List.filterMap_cons]
    have hnd := List.nodup_cons.mp hl
    cases hx : f x with
    | none =>
      exact ih hnd.2 (fun a ha a' ha' b hb hb' =>
        h a (List.mem_cons_of_mem x ha) a' (List.mem_cons_of_mem x ha') b hb hb')
    | some b =>
      rw [List.nodup_cons]
      refine ⟨?_, ih hnd.2 (fun a ha a' ha' b' hb hb' =>
        h a (List.mem_cons_of_mem x ha) a' (List.mem_cons_of_mem x ha') b' hb hb')⟩
      intro hmem
      obtain ⟨a, ha, hfa⟩ := List.mem_filterMap.mp hmem
      have hax : a = x :=
        h a (List.mem_cons_of_mem x ha) x (List.mem_cons_self x xs) b hfa hx
      exact hnd.1 (hax ▸ ha)

theorem mainAdjSpec_nodup (rooms : List Room) (hnd : (rooms.map Room.room_id).Nodup)
    (a : String) : (mainAdjSpec (ipairList 0 rooms) a).Nodup := by
  apply nodup_filterMap_of_inj_on
  · exact List.Nodup.of_map _ (ipairList_idx_nodup rooms 0)
  · intro q hq q' hq' b hb hb'
    obtain ⟨-, hcase⟩ := mainContrib_elim a b q hb
    obtain ⟨-, hcase'⟩ := mainContrib_elim a b q' hb'
    obtain ⟨-, hij, -, h1, h2⟩ := ipairList_mem 0 rooms q hq
    obtain ⟨-, hij', -, h1', h2'⟩ := ipairList_mem 0 rooms q' hq'
    simp only [Nat.sub_zero] at h1 h2 h1' h2'
    rcases hcase with ⟨ha, hbb⟩ | ⟨ha, hbb⟩ <;>
      rcases hcase' with ⟨ha', hbb'⟩ | ⟨ha', hbb'⟩
    · exact ipair_eq_of_idx rooms q q' hq hq'
        (ids_index_inj rooms hnd h1 h1' (ha.trans ha'.symm))
        (ids_index_inj rooms hnd h2 h2' (hbb.trans hbb'.symm))
    · have e1 : q.1.1 = q'.2.1 := ids_index_inj rooms hnd h1 h2' (ha.trans ha'.symm)
      have e2 : q.2.1 = q'.1.1 := ids_index_inj rooms hnd h2 h1' (hbb.trans hbb'.symm)
      omega
    · have e1 : q.2.1 = q'.1.1 := ids_index_inj rooms hnd h2 h1' (ha.trans ha'.symm)
      have e2 : q.1.1 = q'.2.1 := ids_index_inj rooms hnd h1 h2' (hbb.trans hbb'.symm)
      omega
    · exact ipair_eq_of_idx rooms q q' hq hq'
        (ids_index_inj rooms hnd h1 h1' (hbb.trans hbb'.symm))
        (ids_index_inj rooms hnd h2 h2' (ha.trans ha'.symm))

theorem mem_adjSpec_iff (rooms : List Room) (hnd : (rooms.map Room.room_id).Nodup)
    (A B : Room) (hA : A ∈ rooms) (hB : B ∈ rooms) :
    B.room_id ∈ mainAdjSpec (ipairList 0 rooms) A.room_id ↔
      A.room_id ≠ B.room_id ∧ adjCondB A B = true := by
  constructor
  · intro h
    obtain ⟨q, hq, hcond, hcase⟩ := spec_mem_elim _ _ _ h
    obtain ⟨-, hij, -, h1, h2⟩ := ipairList_mem 0 rooms q hq
    simp only [Nat.sub_zero] at h1 h2
    have hne := ipairList_ids_ne rooms hnd q hq
    have hq1 : q.1.2 ∈ rooms := List.getElem?_mem h1
    have hq2 : q.2.2 ∈ rooms := List.getElem?_mem h2
    have hinj := List.inj_on_of_nodup_map hnd
    rcases hcase with ⟨ha, hb⟩ | ⟨ha, hb⟩
    · have e1 : q.1.2 = A := hinj hq1 hA ha
      have e2 : q.2.2 = B := hinj hq2 hB hb
      refine ⟨?_, ?_⟩
      · rw [← ha, ← hb]
        exact hne
      · rw [← e1, ← e2]
        exact hcond
    · have e1 : q.2.2 = A := hinj hq2 hA ha
      have e2 : q.1.2 = B := hinj hq1 hB hb
      refine ⟨?_, ?_⟩
      · rw [← ha, ← hb]
        exact hne.symm
      · rw [← e1, ← e2, ← adjCondB_symm]
        exact hcond
  · rintro ⟨hne, hcond⟩
    obtain ⟨iA, hiA⟩ := List.mem_iff_getElem?.mp hA
    obtain ⟨iB, hiB⟩ := List.mem_iff_getElem?.mp hB
    have hij : iA ≠ iB := by
      intro h
      rw [h, hiB] at hiA
      exact hne (by rw [Option.some.inj hiA])
    rcases Nat.lt_or_ge iA iB with h | h
    · have hmem := ipairList_complete rooms 0 iA iB A B h hiA hiB
      simp only [Nat.zero_add] at hmem
      refine List.mem_filterMap.mpr ⟨((iA, A), (iB, B)), hmem, ?_⟩
      unfold mainContrib pairContrib
      simp [hcond]
    · have hlt : iB < iA := by omega
      have hmem := ipairList_complete rooms 0 iB iA B A hlt hiB hiA
      simp only [Nat.zero_add] at hmem
      refine List.mem_filterMap.mpr ⟨((iB, B), (iA, A)), hmem, ?_⟩
      unfold mainContrib pairContrib
      rw [adjCondB_symm A B] at hcond
      simp [hcond, Ne.symm hne]

theorem similarCapacity_iff_q (a b : Nat) (ha : 0 < a) (hb : 0 < b) :
    similarCapacity a b = true ↔
      |(a : ℚ) - (b : ℚ)| / max (a : ℚ) (b : ℚ) ≤ 1 / 4 := by
  have habs : |(a : ℚ) - (b : ℚ)| = ((max a b - min a b : ℕ) : ℚ) := by
    rcases le_total a b with h | h
    · rw [abs_sub_comm, abs_of_nonneg (sub_nonneg.mpr (by exact_mod_cast h)),
        max_eq_right h, min_eq_left h, Nat.cast_sub h]
    · rw [abs_of_nonneg (sub_nonneg.mpr (by exact_mod_cast h)),
        max_eq_left h, min_eq_right h, Nat.cast_sub h]
  have hmaxcast : max (a : ℚ) (b : ℚ) = ((max a b : ℕ) : ℚ) := (Nat.cast_max _ _).symm
  have hmaxpos : (0 : ℚ) < ((max a b : ℕ) : ℚ) := by
    exact_mod_cast lt_of_lt_of_le ha (le_max_left a b)
  rw [habs, hmaxcast, div_le_div_iff hmaxpos (by norm_num), one_mul]
  unfold similarCapacity
  rw [decide_eq_true_eq]
  constructor
  · rintro ⟨-, h⟩
    have h' : (max a b - min a b) * 4 ≤ max a b := by omega
    exact_mod_cast h'
  · intro h
    have h' : (max a b - min a b) * 4 ≤ max a b := by exact_mod_cast h
    exact ⟨lt_of_lt_of_le ha (le_max_left a b), by omega⟩

/-- C4: for every room list with pairwise-distinct ids (and positive
capacities, per the data model), room `B` appears in room `A`'s
`adjacentRooms` iff `A` and `B` are distinct and share a building or have
relative capacity difference at most 25 percent; consequently the relation
is symmetric, and every `adjacentRooms` list is duplicate-free. -/
theorem c4_adjacency_characterization (rooms : List Room)
    (hnd : (rooms.map Room.room_id).Nodup)
    (hpos : ∀ r ∈ rooms, 0 < r.capacity) :
    (∀ A ∈ rooms, ∀ B ∈ rooms,
      (B.room_id ∈ adjOf (buildRoomsGraph rooms) A.room_id ↔
        A.room_id ≠ B.room_id ∧
          (A.building = B.building ∨
            |(A.capacity : ℚ) - (B.capacity : ℚ)| /
              max (A.capacity : ℚ) (B.capacity : ℚ) ≤ 1 / 4))) ∧
    (∀ A ∈ rooms, ∀ B ∈ rooms,
      (B.room_id ∈ adjOf (buildRoomsGraph rooms) A.room_id ↔
        A.room_id ∈ adjOf (buildRoomsGraph rooms) B.room_id)) ∧
    (∀ A ∈ rooms, (adjOf (buildRoomsGraph rooms) A.room_id).Nodup) := by
  have hadj : ∀ A ∈ rooms, adjOf (buildRoomsGraph rooms) A.room_id =
      mainAdjSpec (ipairList 0 rooms) A.room_id := fun A hA =>
    adjOf_of_mapGet (buildRoomsGraph_spec rooms hnd A hA)
  have hcondiff : ∀ A ∈ rooms, ∀ B ∈ rooms, (adjCondB A B = true ↔
      (A.building = B.building ∨
        |(A.capacity : ℚ) - (B.capacity : ℚ)| /
          max (A.capacity : ℚ) (B.capacity : ℚ) ≤ 1 / 4)) := by
    intro A hA B hB
    rw [adjCondB, Bool.or_eq_true, decide_eq_true_eq,
      similarCapacity_iff_q _ _ (hpos A hA) (hpos B hB)]
  refine ⟨?_, ?_, ?_⟩
  · intro A hA B hB
    rw [hadj A hA, mem_adjSpec_iff rooms hnd A B hA hB]
    exact and_congr_right (fun _ => hcondiff A hA B hB)
  · intro A hA B hB
    rw [hadj A hA, hadj B hB, mem_adjSpec_iff rooms hnd A B hA hB,
      mem_adjSpec_iff rooms hnd B A hB hA]
    constructor
    · rintro ⟨hne, hc⟩
      exact ⟨Ne.symm hne, by rw [← adjCondB_symm]; exact hc⟩
    · rintro ⟨hne, hc⟩
      exact ⟨Ne.symm hne, by rw [adjCondB_symm]; exact hc⟩
  · intro A hA
    rw [hadj A hA]
    exact mainAdjSpec_nodup rooms hnd A.room_id

theorem c4_adjacency_characterization_witness :
    ("R60" : String) ∈ adjOf (buildRoomsGraph [roomA50, roomB60, roomC100]) "R50" ∧
      (adjOf (buildRoomsGraph [roomA50, roomB60, roomC100]) "R50").Nodup :=
  ⟨((c4_adjacency_characterization [roomA50, roomB60, roomC100] (by decide)
      (by decide)).1 roomA50 (by decide) roomB60 (by decide)).mpr
      ⟨by decide, Or.inl rfl⟩,
    (c4_adjacency_characterization [roomA50, roomB60, roomC100] (by decide)
      (by decide)).2.2 roomA50 (by decide)⟩

end Classroom
